import Mathlib

/-!
# SearchServer (src/main.cpp): a shallow embedding

The C++ program is a TF-IDF search server.  The embedding follows the source
function by function.

* `std::string` is a list of characters (`Str`); `std::vector` is a `List`.
* `std::set<K>` and `std::map<K,V>` are lists kept in ascending key order; the
  operations below (`setInsert`, `mapFind`, `mapUpdate`) are the ones the source
  uses (`insert`, `count`/`at`, `operator[]` followed by an assignment).  The
  functions do not require their input to be ordered; that reachable servers are
  duplicate-free is proved separately.
* `double` is an arbitrary linearly ordered field `R` (exact arithmetic, no
  rounding), and `log` is a parameter `log : R → R`; taking `R := ℝ` and
  `log := Real.log` gives the real-number reading of the program, `R := ℚ`
  an executable one.
* `std::sort` is modelled by an insertion sort driven by the comparator of the
  source.  `std::sort` leaves the relative order of elements that compare
  equal unspecified; nothing proved below depends on that order.
* `int` document ids are `Int`.  The `int` counter `allk` is the mathematical
  number of increments, an `Int`; it is the value the 32-bit `int` holds as long
  as it does not exceed `INT_MAX` (`wrapInt32`), and the statements about the
  counter over whole call sequences are made for at most `INT_MAX` calls.
-/

namespace SearchServerModel

set_option linter.unusedSectionVars false

/-- Strings: `std::string` as a list of characters. -/
abbrev Str := List Char

/-! ## Ordered containers -/

section Containers

variable {K V : Type}

/-- Set insertion `std::set::insert`: put `k` at its place in an ascending list, unless present. -/
def setInsert [LinearOrder K] (k : K) : List K → List K
  | [] => [k]
  | x :: xs =>
    if k < x then k :: x :: xs
    else if k = x then x :: xs
    else x :: setInsert k xs

/-- Lookup `std::map::find` / `at` / `count`: the value stored under `k`, if any (keys
are compared with the order of the map, as `std::map` does). -/
def mapFind [LinearOrder K] : List (K × V) → K → Option V
  | [], _ => none
  | (k', v) :: rest, k => if k = k' then some v else mapFind rest k

/-- Insert a fresh key at its place in ascending key order. -/
def mapInsert [LinearOrder K] (k : K) (v : V) : List (K × V) → List (K × V)
  | [] => [(k, v)]
  | (k', v') :: rest =>
    if k < k' then (k, v) :: (k', v') :: rest
    else (k', v') :: mapInsert k v rest

/-- Replace the value stored under an existing key `k` by `f` of it. -/
def mapModify [LinearOrder K] (k : K) (f : V → V) : List (K × V) → List (K × V)
  | [] => []
  | (k', v') :: rest =>
    if k = k' then (k', f v') :: rest
    else (k', v') :: mapModify k f rest

/-- The statement `m[k] = f(m[k])`: `operator[]` value-initialises a missing entry
to `dflt` (inserting it in key order), then the entry is overwritten. -/
def mapUpdate [LinearOrder K] (m : List (K × V)) (k : K) (dflt : V) (f : V → V) :
    List (K × V) :=
  match mapFind m k with
  | some _ => mapModify k f m
  | none => mapInsert k (f dflt) m

/-- The keys of a map, in iteration order. -/
def mapKeys (m : List (K × V)) : List K := m.map Prod.fst

end Containers

/-! ## The program -/

/-- Loop state of `SplitIntoWords`: the words pushed so far and the current word. -/
def splitStep (st : List Str × Str) (c : Char) : List Str × Str :=
  if c = ' ' then
    (if st.2 ≠ [] then (st.1 ++ [st.2], []) else st)
  else (st.1, st.2 ++ [c])

/-- Function `SplitIntoWords` (main.cpp:24-42). -/
def SplitIntoWords (text : Str) : List Str :=
  let st := text.foldl splitStep ([], [])
  if st.2 ≠ [] then st.1 ++ [st.2] else st.1

/-- Record `struct Document` (main.cpp:44-47). -/
structure Document (R : Type) where
  id : Int
  relevance : R
deriving DecidableEq

/-- Record `struct Query` (main.cpp:83-86). -/
structure Query where
  plus_ : List Str
  minus_ : List Str
deriving DecidableEq

/-- The data members of `class SearchServer` (main.cpp:88-92). -/
structure SearchServer (R : Type) where
  word_to_documents_freqs_ : List (Str × List (Int × R))
  stop_words_ : List Str
  allk : Int

/-- The largest value of the 32-bit `int` in which `allk` is kept (main.cpp:92). -/
def INT_MAX : Int := 2147483647

/-- The value a 32-bit two's-complement `int` holds for the integer `x`: `x`
itself between `-2^31` and `INT_MAX`, and `x` wrapped modulo `2^32` otherwise. -/
def wrapInt32 (x : Int) : Int :=
  (x + 2147483648) % 4294967296 - 2147483648

/-- Constant `MAX_RESULT_DOCUMENT_COUNT` (main.cpp:10). -/
def MAX_RESULT_DOCUMENT_COUNT : Nat := 5

section Program

variable {R : Type} [LinearOrderedField R]

/-- A default-constructed `SearchServer`. -/
def SearchServer.init : SearchServer R :=
  { word_to_documents_freqs_ := [], stop_words_ := [], allk := 0 }

/-- Method `SetStopWords` (main.cpp:52-56). -/
def SetStopWords (s : SearchServer R) (text : Str) : SearchServer R :=
  { s with stop_words_ := (SplitIntoWords text).foldl (fun sw word => setInsert word sw) s.stop_words_ }

/-- Method `IsStopWord` (main.cpp:94-96). -/
def IsStopWord (s : SearchServer R) (word : Str) : Bool :=
  decide (word ∈ s.stop_words_)

/-- Method `SplitIntoWordsNoStop` (main.cpp:98-106). -/
def SplitIntoWordsNoStop (s : SearchServer R) (text : Str) : List Str :=
  (SplitIntoWords text).foldl
    (fun words word => if !IsStopWord s word then words ++ [word] else words) []

/-- The statement `word_to_documents_freqs_[word][document_id] += x` (main.cpp:61). -/
def addFreq (m : List (Str × List (Int × R))) (word : Str) (document_id : Int) (x : R) :
    List (Str × List (Int × R)) :=
  mapUpdate m word [] (fun inner => mapUpdate inner document_id 0 (fun v => v + x))

/-- Method `AddDocument` (main.cpp:58-65). The field `allk` counts the increments
of line 64 as an integer; the 32-bit `int` of the program holds `wrapInt32` of
it, which is the same number while the count is at most `INT_MAX`. -/
def AddDocument (s : SearchServer R) (document_id : Int) (document : Str) : SearchServer R :=
  let words := SplitIntoWordsNoStop s document
  { s with
    word_to_documents_freqs_ :=
      words.foldl (fun m word => addFreq m word document_id (1 / (words.length : R)))
        s.word_to_documents_freqs_
    allk := s.allk + 1 }

/-- One iteration of the loop of `ParseQuery`. -/
def parseStep (query : Query) (word : Str) : Query :=
  if word.head? = some '-' then
    { query with minus_ := setInsert (word.drop 1) query.minus_ }
  else
    { query with plus_ := setInsert word query.plus_ }

/-- Method `ParseQuery` (main.cpp:108-118). -/
def ParseQuery (s : SearchServer R) (text : Str) : Query :=
  (SplitIntoWordsNoStop s text).foldl parseStep { plus_ := [], minus_ := [] }

/-- The statement `slova[qw][id] = r` (main.cpp:131). -/
def setScore (slova : List (Str × List (Int × R))) (qw : Str) (id : Int) (r : R) :
    List (Str × List (Int × R)) :=
  mapUpdate slova qw [] (fun inner => mapUpdate inner id 0 (fun _ => r))

/-- The body of the first loop of `FindAllDocuments` (main.cpp:124-133). -/
def scoreStep (log : R → R) (s : SearchServer R) (query_words : Query)
    (slova : List (Str × List (Int × R))) (qw : Str) : List (Str × List (Int × R)) :=
  if decide (qw ∈ query_words.minus_) then slova
  else
    match mapFind s.word_to_documents_freqs_ qw with
    | none => slova
    | some postings =>
      let idf := log ((s.allk : R) / (postings.length : R))
      postings.foldl (fun sl p => setScore sl qw p.1 (p.2 * idf)) slova

/-- The statement `md[id] += r` (main.cpp:137). -/
def addScore (md : List (Int × R)) (p : Int × R) : List (Int × R) :=
  mapUpdate md p.1 0 (fun v => v + p.2)

/-- Method `FindAllDocuments` (main.cpp:119-142). -/
def FindAllDocuments (log : R → R) (s : SearchServer R) (query_words : Query) :
    List (Document R) :=
  let slova := query_words.plus_.foldl (scoreStep log s query_words) []
  let md := slova.foldl (fun md e => e.2.foldl addScore md) ([] : List (Int × R))
  md.foldl (fun matched_documents p => matched_documents ++ [{ id := p.1, relevance := p.2 }]) []

/-- The comparator handed to `std::sort` (main.cpp:72-74). -/
def byRelevance (lhs rhs : Document R) : Bool :=
  decide (lhs.relevance > rhs.relevance)

/-- Insert `x` into a list ordered by `comp`: after every `y` that `comp` puts
strictly before `x`. -/
def sortInsert {α : Type} (comp : α → α → Bool) (x : α) : List α → List α
  | [] => [x]
  | y :: ys => if comp y x then y :: sortInsert comp x ys else x :: y :: ys

/-- Sorting `std::sort(begin, end, comp)`: repeated `sortInsert`. -/
def sort {α : Type} (comp : α → α → Bool) (l : List α) : List α :=
  l.foldr (sortInsert comp) []

/-- Method `FindTopDocuments` (main.cpp:67-79). -/
def FindTopDocuments (log : R → R) (s : SearchServer R) (raw_query : Str) :
    List (Document R) :=
  let query := ParseQuery s raw_query
  let matched_documents := sort byRelevance (FindAllDocuments log s query)
  if matched_documents.length > MAX_RESULT_DOCUMENT_COUNT then
    matched_documents.take MAX_RESULT_DOCUMENT_COUNT
  else matched_documents

/-- Function `CreateSearchServer` (main.cpp:145-155) on already read input: the stop-word
line, then the documents with the ids the caller passes to `AddDocument`. -/
def build (stop : Str) (docs : List (Int × Str)) : SearchServer R :=
  docs.foldl (fun s d => AddDocument s d.1 d.2) (SetStopWords SearchServer.init stop)

/-- The entry for document `id` under `word` in a term → (id → value) map, if any
(`m.at(word).at(id)` when both keys are present). -/
def posting (m : List (Str × List (Int × R))) (word : Str) (id : Int) : Option R :=
  (mapFind m word).bind (fun inner => mapFind inner id)

/-- Accessor `PostingsFor(term)`: the inner map stored for `term`, empty when the term was
never indexed. -/
def PostingsFor (s : SearchServer R) (term : Str) : List (Int × R) :=
  (mapFind s.word_to_documents_freqs_ term).getD []

/-- Both levels of `word_to_documents_freqs_` are duplicate-free and no stored
inner map is empty: what every `std::map` built by `AddDocument` satisfies. -/
def WellFormed (s : SearchServer R) : Prop :=
  (mapKeys s.word_to_documents_freqs_).Nodup ∧
    ∀ e ∈ s.word_to_documents_freqs_, (mapKeys e.2).Nodup ∧ e.2 ≠ []

/-- The inverse document frequency computed at main.cpp:128 for a term with
postings: `log(1.0 * allk / word_to_documents_freqs_.at(term).size())`. -/
def idf (log : R → R) (s : SearchServer R) (term : Str) : R :=
  log ((s.allk : R) / ((PostingsFor s term).length : R))

/-- The score of document `D` for a parsed query, as a sum over the set of plus
terms that are not minus terms and for which `D` has a posting: stored term
frequency times `idf`. -/
def tfidfSum (log : R → R) (s : SearchServer R) (q : Query) (D : Int) : R :=
  Finset.sum
    (q.plus_.toFinset.filter
      (fun T => T ∉ q.minus_ ∧ (posting s.word_to_documents_freqs_ T D).isSome))
    (fun T => (posting s.word_to_documents_freqs_ T D).getD 0 * idf log s T)

/-- Term frequency of `T` in a token list: occurrences of `T` divided by the
number of tokens. -/
def tf (words : List Str) (T : Str) : R :=
  (words.count T : R) / (words.length : R)

/-- Document frequency of `T` in a corpus: the number of documents whose tokens
(after stop-word removal by `s`) contain `T`. -/
def df (s : SearchServer R) (docs : List (Int × Str)) (T : Str) : Nat :=
  (docs.filter (fun d => decide (T ∈ SplitIntoWordsNoStop s d.2))).length

/-- A document text contains a scoring term of the query: a plus term that is not
also a minus term. -/
def hasScoringTerm (s : SearchServer R) (q : Query) (text : Str) : Bool :=
  q.plus_.any (fun T => decide (T ∉ q.minus_) && decide (T ∈ SplitIntoWordsNoStop s text))

/-- A document text contains a vetoing term of the query: a minus term that is not
also a plus term. -/
def hasVetoTerm (s : SearchServer R) (q : Query) (text : Str) : Bool :=
  q.minus_.any (fun M => decide (M ∉ q.plus_) && decide (M ∈ SplitIntoWordsNoStop s text))

/-- The arguments `(allk, size)` on which the expression
`log(1.0 * allk / word_to_documents_freqs_.at(qw).size())` of main.cpp:128 is
evaluated by `FindAllDocuments`, one pair per loop iteration that reaches it. -/
def idfCalls (s : SearchServer R) (query_words : Query) : List (Int × Nat) :=
  query_words.plus_.filterMap (fun qw =>
    if decide (qw ∈ query_words.minus_) then none
    else (mapFind s.word_to_documents_freqs_ qw).map (fun postings => (s.allk, postings.length)))

/-- The divisors `words.size()` by which `1.0` is divided at main.cpp:61 during
one `AddDocument` call, one per loop iteration. -/
def freqDivisors (s : SearchServer R) (document : Str) : List Nat :=
  (SplitIntoWordsNoStop s document).map (fun _ => (SplitIntoWordsNoStop s document).length)

end Program

/-- The value `SplitIntoWords` returns from the loop state reached at the end of
the text (main.cpp:37-41). -/
def splitFinish (st : List Str × Str) : List Str :=
  if st.2 ≠ [] then st.1 ++ [st.2] else st.1

/-- A run of `n` space characters. -/
def spaces (n : Nat) : Str := List.replicate n ' '

/-- The text made of `lead` spaces followed by each word of `ws` with the given
number of spaces after it. -/
def spaced (lead : Nat) (ws : List (Str × Nat)) : Str :=
  spaces lead ++ ws.flatMap (fun p => p.1 ++ spaces p.2)

/-- A corpus in which the term "a" occurs in every document: "a b", "a". -/
def commonTermCorpus : List (Int × Str) :=
  [(0, ['a', ' ', 'b']), (1, ['a'])]

/-- The corpus of the worked example: "a b c", "a c", "b" with ids 0, 1, 2. -/
def exampleCorpus : List (Int × Str) :=
  [(0, ['a', ' ', 'b', ' ', 'c']), (1, ['a', ' ', 'c']), (2, ['b'])]

/-- The query of the worked example: "a -b". -/
def exampleQuery : Str := ['a', ' ', '-', 'b']

/-! ## Containers: basic facts -/

section ContainerLemmas

variable {K V : Type}

theorem mem_setInsert [LinearOrder K] (k a : K) (s : List K) :
    a ∈ setInsert k s ↔ a = k ∨ a ∈ s := by
  induction s with
  | nil => simp [setInsert]
  | cons x xs ih =>
    unfold setInsert
    split_ifs with h1 h2
    · simp
    · subst h2; simp
    · simp only [List.mem_cons, ih]; tauto

theorem sorted_setInsert [LinearOrder K] (k : K) (s : List K)
    (hs : s.Pairwise (· < ·)) : (setInsert k s).Pairwise (· < ·) := by
  induction s with
  | nil => simp [setInsert]
  | cons x xs ih =>
    unfold setInsert
    rw [List.pairwise_cons] at hs
    split_ifs with h1 h2
    · refine List.pairwise_cons.2 ⟨?_, List.pairwise_cons.2 hs⟩
      intro b hb
      rcases List.mem_cons.1 hb with rfl | hb
      · exact h1
      · exact lt_trans h1 (hs.1 b hb)
    · exact List.pairwise_cons.2 hs
    · refine List.pairwise_cons.2 ⟨?_, ih hs.2⟩
      intro b hb
      rcases (mem_setInsert k b xs).1 hb with rfl | hb
      · exact lt_of_le_of_ne (not_lt.1 h1) (Ne.symm h2)
      · exact hs.1 b hb

theorem mapFind_eq_none_iff [LinearOrder K] (m : List (K × V)) (k : K) :
    mapFind m k = none ↔ k ∉ mapKeys m := by
  induction m with
  | nil => simp [mapFind, mapKeys]
  | cons e rest ih =>
    obtain ⟨k1, v1⟩ := e
    unfold mapFind
    by_cases h : k = k1
    · simp [h, mapKeys]
    · simpa [h, mapKeys] using ih

theorem mapFind_isSome_iff [LinearOrder K] (m : List (K × V)) (k : K) :
    (mapFind m k).isSome ↔ k ∈ mapKeys m := by
  rw [← not_iff_not, ← mapFind_eq_none_iff]
  cases mapFind m k <;> simp

theorem mapFind_mem [LinearOrder K] {m : List (K × V)} {k : K} {v : V}
    (h : mapFind m k = some v) : (k, v) ∈ m := by
  induction m with
  | nil => simp [mapFind] at h
  | cons e rest ih =>
    obtain ⟨k1, v1⟩ := e
    unfold mapFind at h
    by_cases hk : k = k1
    · simp [hk] at h; subst hk; subst h; simp
    · simp [hk] at h; exact List.mem_cons_of_mem _ (ih h)

theorem mapFind_of_mem [LinearOrder K] {m : List (K × V)} (hnd : (mapKeys m).Nodup)
    {k : K} {v : V} (h : (k, v) ∈ m) : mapFind m k = some v := by
  induction m with
  | nil => simp at h
  | cons e rest ih =>
    obtain ⟨k1, v1⟩ := e
    simp only [mapKeys, List.map_cons, List.nodup_cons] at hnd
    unfold mapFind
    rcases List.mem_cons.1 h with heq | hmem
    · cases heq; simp
    · have hne : k ≠ k1 := by
        rintro rfl
        exact hnd.1 (List.mem_map.2 ⟨(k, v), hmem, rfl⟩)
      simp only [hne, if_false]
      exact ih hnd.2 hmem

theorem mapKeys_mapModify [LinearOrder K] (k : K) (f : V → V) (m : List (K × V)) :
    mapKeys (mapModify k f m) = mapKeys m := by
  induction m with
  | nil => rfl
  | cons e rest ih =>
    obtain ⟨k1, v1⟩ := e
    unfold mapModify
    split_ifs with h
    · simp [mapKeys]
    · simpa [mapKeys] using ih

theorem mapKeys_mapInsert_perm [LinearOrder K] (k : K) (v : V) (m : List (K × V)) :
    (mapKeys (mapInsert k v m)).Perm (k :: mapKeys m) := by
  induction m with
  | nil => simp [mapInsert, mapKeys]
  | cons e rest ih =>
    obtain ⟨k1, v1⟩ := e
    unfold mapInsert
    split_ifs with h
    · simp [mapKeys]
    · simp only [mapKeys, List.map_cons] at ih ⊢
      exact (List.Perm.cons k1 ih).trans (List.Perm.swap k k1 _)

theorem mapFind_mapModify [LinearOrder K] (k : K) (f : V → V) (m : List (K × V)) (a : K) :
    mapFind (mapModify k f m) a = if a = k then (mapFind m k).map f else mapFind m a := by
  induction m with
  | nil => simp [mapModify, mapFind]
  | cons e rest ih =>
    obtain ⟨k1, v1⟩ := e
    unfold mapModify
    by_cases h : k = k1
    · subst h
      by_cases ha : a = k <;> simp [mapFind, ha]
    · by_cases ha : a = k
      · subst ha; simp [mapFind, h, ih]
      · by_cases ha1 : a = k1
        · subst ha1; simp [mapFind, h, ha]
        · simp [mapFind, h, ha, ha1, ih]

theorem mapFind_mapInsert [LinearOrder K] (k : K) (v : V) (m : List (K × V))
    (hk : mapFind m k = none) (a : K) :
    mapFind (mapInsert k v m) a = if a = k then some v else mapFind m a := by
  induction m with
  | nil => simp [mapInsert, mapFind]
  | cons e rest ih =>
    obtain ⟨k1, v1⟩ := e
    have hne : k ≠ k1 := by
      intro h; subst h; simp [mapFind] at hk
    have hk2 : mapFind rest k = none := by simpa [mapFind, hne] using hk
    unfold mapInsert
    split_ifs with h1 ha
    · simp [mapFind, ha]
    · simp [mapFind, ha]
    · subst a; simp [mapFind, hne, ih hk2]
    · rename_i ha2
      by_cases ha1 : a = k1 <;> simp [mapFind, ha1, ha2, ih hk2]

theorem mapFind_mapUpdate [LinearOrder K] (m : List (K × V)) (k : K) (dflt : V)
    (f : V → V) (a : K) :
    mapFind (mapUpdate m k dflt f) a
      = if a = k then some (f ((mapFind m k).getD dflt)) else mapFind m a := by
  unfold mapUpdate
  cases h : mapFind m k with
  | none => simp [mapFind_mapInsert k _ m h a]
  | some v => simp [mapFind_mapModify, h]

theorem mapKeys_mapUpdate_perm [LinearOrder K] (m : List (K × V)) (k : K) (dflt : V)
    (f : V → V) :
    (mapKeys (mapUpdate m k dflt f)).Perm (if k ∈ mapKeys m then mapKeys m else k :: mapKeys m) := by
  unfold mapUpdate
  cases h : mapFind m k with
  | none =>
    have : k ∉ mapKeys m := (mapFind_eq_none_iff m k).1 h
    simpa [this] using mapKeys_mapInsert_perm k (f dflt) m
  | some v =>
    have : k ∈ mapKeys m := (mapFind_isSome_iff m k).1 (by simp [h])
    simp [this, mapKeys_mapModify]

theorem mem_mapKeys_mapUpdate [LinearOrder K] (m : List (K × V)) (k : K) (dflt : V)
    (f : V → V) (a : K) :
    a ∈ mapKeys (mapUpdate m k dflt f) ↔ a = k ∨ a ∈ mapKeys m := by
  rw [(mapKeys_mapUpdate_perm m k dflt f).mem_iff]
  split_ifs with h
  · constructor
    · exact Or.inr
    · rintro (rfl | h1)
      · exact h
      · exact h1
  · simp

theorem nodup_mapKeys_mapUpdate [LinearOrder K] (m : List (K × V)) (k : K) (dflt : V)
    (f : V → V) (hm : (mapKeys m).Nodup) : (mapKeys (mapUpdate m k dflt f)).Nodup := by
  rw [(mapKeys_mapUpdate_perm m k dflt f).nodup_iff]
  split_ifs with h
  · exact hm
  · exact List.nodup_cons.2 ⟨h, hm⟩
theorem mem_mapModify [LinearOrder K] {k : K} {f : V → V} {m : List (K × V)} {e : K × V}
    (h : e ∈ mapModify k f m) :
    e ∈ m ∨ ∃ v, mapFind m k = some v ∧ e = (k, f v) := by
  induction m with
  | nil => simp [mapModify] at h
  | cons e1 rest ih =>
    obtain ⟨k1, v1⟩ := e1
    unfold mapModify at h
    by_cases hk : k = k1
    · subst hk
      simp only [if_true, List.mem_cons] at h
      rcases h with h | h
      · exact Or.inr ⟨v1, by simp [mapFind], h⟩
      · exact Or.inl (List.mem_cons_of_mem _ h)
    · simp only [hk, if_false, List.mem_cons] at h
      rcases h with h | h
      · exact Or.inl (by simp [h])
      · rcases ih h with h2 | ⟨v, hv, he⟩
        · exact Or.inl (List.mem_cons_of_mem _ h2)
        · exact Or.inr ⟨v, by simp [mapFind, hk, hv], he⟩

theorem mem_mapInsert [LinearOrder K] {k : K} {v : V} {m : List (K × V)} {e : K × V}
    (h : e ∈ mapInsert k v m) : e ∈ m ∨ e = (k, v) := by
  induction m with
  | nil => simpa [mapInsert] using h
  | cons e1 rest ih =>
    obtain ⟨k1, v1⟩ := e1
    unfold mapInsert at h
    split_ifs at h with h1
    · rcases List.mem_cons.1 h with h | h
      · exact Or.inr h
      · exact Or.inl h
    · rcases List.mem_cons.1 h with h | h
      · exact Or.inl (by simp [h])
      · rcases ih h with h2 | h2
        · exact Or.inl (List.mem_cons_of_mem _ h2)
        · exact Or.inr h2

theorem mem_mapUpdate [LinearOrder K] {m : List (K × V)} {k : K} {dflt : V} {f : V → V}
    {e : K × V} (h : e ∈ mapUpdate m k dflt f) :
    e ∈ m ∨ e = (k, f ((mapFind m k).getD dflt)) := by
  unfold mapUpdate at h
  cases hk : mapFind m k with
  | none =>
    rw [hk] at h
    simpa using mem_mapInsert h
  | some v =>
    rw [hk] at h
    rcases mem_mapModify h with h1 | ⟨v2, hv2, he⟩
    · exact Or.inl h1
    · rw [hk] at hv2
      cases hv2
      exact Or.inr (by simpa using he)

theorem mapUpdate_ne_nil [LinearOrder K] (m : List (K × V)) (k : K) (dflt : V) (f : V → V) :
    mapUpdate m k dflt f ≠ [] := by
  intro h
  have : k ∈ mapKeys (mapUpdate m k dflt f) := (mem_mapKeys_mapUpdate m k dflt f k).2 (Or.inl rfl)
  simp [h, mapKeys] at this

end ContainerLemmas

/-! ## Two-level maps -/

section Nested

variable {R : Type} [LinearOrderedField R]

/-- Nested update `m[w][d] = f(m[w][d])`, as used by `addFreq` and `setScore`. -/
theorem posting_nested_update (m : List (Str × List (Int × R))) (w : Str) (d : Int)
    (f : R → R) (T : Str) (D : Int) :
    posting (mapUpdate m w [] (fun inner => mapUpdate inner d 0 f)) T D
      = if T = w ∧ D = d then some (f ((posting m w d).getD 0)) else posting m T D := by
  unfold posting
  rw [mapFind_mapUpdate]
  by_cases hT : T = w
  · subst hT
    simp only [if_true, Option.some_bind, true_and]
    rw [mapFind_mapUpdate]
    cases hm : mapFind m T with
    | none => simp [mapFind]
    | some inner => simp
  · simp [hT]

theorem nodup_nested_update (m : List (Str × List (Int × R))) (w : Str) (d : Int)
    (f : R → R) (h1 : (mapKeys m).Nodup) (h2 : ∀ e ∈ m, (mapKeys e.2).Nodup ∧ e.2 ≠ []) :
    (mapKeys (mapUpdate m w [] (fun inner => mapUpdate inner d 0 f))).Nodup ∧
      ∀ e ∈ mapUpdate m w [] (fun inner => mapUpdate inner d 0 f),
        (mapKeys e.2).Nodup ∧ e.2 ≠ [] := by
  refine ⟨nodup_mapKeys_mapUpdate _ _ _ _ h1, ?_⟩
  intro e he
  rcases mem_mapUpdate he with h | h
  · exact h2 e h
  · subst h
    refine ⟨nodup_mapKeys_mapUpdate _ _ _ _ ?_, mapUpdate_ne_nil _ _ _ _⟩
    cases hm : mapFind m w with
    | none => simp [mapKeys]
    | some inner => simpa using (h2 _ (mapFind_mem hm)).1

end Nested

/-! ## The scoring loops of `FindAllDocuments` -/

section Scoring

variable {R : Type} [LinearOrderedField R]

theorem posting_nil (T : Str) (D : Int) : posting ([] : List (Str × List (Int × R))) T D = none := by
  simp [posting, mapFind]

theorem posting_setScore_fold (qw : Str) (c : R) (postings : List (Int × R))
    (hnd : (mapKeys postings).Nodup) (sl : List (Str × List (Int × R))) (T : Str) (D : Int) :
    posting (postings.foldl (fun sl p => setScore sl qw p.1 (p.2 * c)) sl) T D
      = if T = qw then (mapFind postings D).elim (posting sl qw D) (fun v => some (v * c))
        else posting sl T D := by
  induction postings generalizing sl with
  | nil =>
    by_cases hT : T = qw
    · subst hT; simp [mapFind]
    · simp [hT]
  | cons p rest ih =>
    obtain ⟨d, v⟩ := p
    simp only [mapKeys, List.map_cons, List.nodup_cons] at hnd
    rw [List.foldl_cons, ih hnd.2]
    unfold setScore
    by_cases hT : T = qw
    · subst hT
      simp only [if_true]
      by_cases hD : D = d
      · subst hD
        have hnone : mapFind rest D = none := (mapFind_eq_none_iff rest D).2 hnd.1
        simp [hnone, mapFind, posting_nested_update]
      · simp [mapFind, hD, posting_nested_update]
    · simp [hT, posting_nested_update]

theorem wf_setScore_fold (qw : Str) (c : R) (postings : List (Int × R))
    (sl : List (Str × List (Int × R)))
    (h1 : (mapKeys sl).Nodup) (h2 : ∀ e ∈ sl, (mapKeys e.2).Nodup ∧ e.2 ≠ []) :
    (mapKeys (postings.foldl (fun sl p => setScore sl qw p.1 (p.2 * c)) sl)).Nodup ∧
      ∀ e ∈ postings.foldl (fun sl p => setScore sl qw p.1 (p.2 * c)) sl,
        (mapKeys e.2).Nodup ∧ e.2 ≠ [] := by
  induction postings generalizing sl with
  | nil => exact ⟨h1, h2⟩
  | cons p rest ih =>
    rw [List.foldl_cons]
    have h := nodup_nested_update sl qw p.1 (fun _ => p.2 * c) h1 h2
    exact ih _ h.1 h.2

theorem posting_scoreStep (log : R → R) (s : SearchServer R) (hs : WellFormed s) (q : Query)
    (sl : List (Str × List (Int × R))) (qw T : Str) (D : Int) :
    posting (scoreStep log s q sl qw) T D
      = if T = qw ∧ qw ∉ q.minus_ then
          (posting s.word_to_documents_freqs_ qw D).elim (posting sl qw D)
            (fun v => some (v * idf log s qw))
        else posting sl T D := by
  unfold scoreStep
  by_cases hm : qw ∈ q.minus_
  · simp [hm]
  · simp only [hm, decide_False, Bool.false_eq_true, if_false, not_false_eq_true, and_true]
    cases hf : mapFind s.word_to_documents_freqs_ qw with
    | none =>
      have : posting s.word_to_documents_freqs_ qw D = none := by simp [posting, hf]
      simp only [this, Option.elim_none]
      split_ifs with hT
      · rw [hT]
      · rfl
    | some postings =>
      have hnd : (mapKeys postings).Nodup := (hs.2 _ (mapFind_mem hf)).1
      have hp : posting s.word_to_documents_freqs_ qw D = mapFind postings D := by
        simp [posting, hf]
      have hidf : idf log s qw = log ((s.allk : R) / (postings.length : R)) := by
        simp [idf, PostingsFor, hf]
      simp only [hp, hidf]
      exact posting_setScore_fold qw _ postings hnd sl T D

theorem wf_scoreStep (log : R → R) (s : SearchServer R) (q : Query)
    (sl : List (Str × List (Int × R))) (qw : Str)
    (h1 : (mapKeys sl).Nodup) (h2 : ∀ e ∈ sl, (mapKeys e.2).Nodup ∧ e.2 ≠ []) :
    (mapKeys (scoreStep log s q sl qw)).Nodup ∧
      ∀ e ∈ scoreStep log s q sl qw, (mapKeys e.2).Nodup ∧ e.2 ≠ [] := by
  unfold scoreStep
  split_ifs
  · exact ⟨h1, h2⟩
  · cases hf : mapFind s.word_to_documents_freqs_ qw with
    | none => exact ⟨h1, h2⟩
    | some postings => exact wf_setScore_fold qw _ postings sl h1 h2

theorem posting_scoreFold (log : R → R) (s : SearchServer R) (hs : WellFormed s) (q : Query)
    (ps : List Str) (sl : List (Str × List (Int × R))) (T : Str) (D : Int) :
    posting (ps.foldl (scoreStep log s q) sl) T D
      = if T ∈ ps ∧ T ∉ q.minus_ then
          (posting s.word_to_documents_freqs_ T D).elim (posting sl T D)
            (fun v => some (v * idf log s T))
        else posting sl T D := by
  induction ps generalizing sl with
  | nil => simp
  | cons p rest ih =>
    rw [List.foldl_cons, ih, posting_scoreStep log s hs]
    by_cases hm : T ∈ q.minus_
    · have : ¬ (T = p ∧ p ∉ q.minus_) := by
        rintro ⟨rfl, h⟩; exact h hm
      simp [hm, this]
    · by_cases hp : T = p
      · subst hp
        cases hv : posting s.word_to_documents_freqs_ T D <;> simp [hm, hv]
      · simp [hm, hp]

theorem wf_scoreFold (log : R → R) (s : SearchServer R) (q : Query)
    (ps : List Str) (sl : List (Str × List (Int × R)))
    (h1 : (mapKeys sl).Nodup) (h2 : ∀ e ∈ sl, (mapKeys e.2).Nodup ∧ e.2 ≠ []) :
    (mapKeys (ps.foldl (scoreStep log s q) sl)).Nodup ∧
      ∀ e ∈ ps.foldl (scoreStep log s q) sl, (mapKeys e.2).Nodup ∧ e.2 ≠ [] := by
  induction ps generalizing sl with
  | nil => exact ⟨h1, h2⟩
  | cons p rest ih =>
    rw [List.foldl_cons]
    have h := wf_scoreStep log s q sl p h1 h2
    exact ih _ h.1 h.2

theorem mem_mapKeys_addScore_fold (iid md : List (Int × R)) (D : Int) :
    D ∈ mapKeys (iid.foldl addScore md) ↔ D ∈ mapKeys md ∨ D ∈ mapKeys iid := by
  induction iid generalizing md with
  | nil => simp [mapKeys]
  | cons p rest ih =>
    rw [List.foldl_cons, ih]
    unfold addScore
    rw [mem_mapKeys_mapUpdate]
    simp only [mapKeys, List.map_cons, List.mem_cons]
    tauto

theorem nodup_addScore_fold (iid md : List (Int × R)) (h : (mapKeys md).Nodup) :
    (mapKeys (iid.foldl addScore md)).Nodup := by
  induction iid generalizing md with
  | nil => exact h
  | cons p rest ih =>
    rw [List.foldl_cons]
    exact ih _ (nodup_mapKeys_mapUpdate _ _ _ _ h)

theorem value_addScore_fold (iid md : List (Int × R)) (hnd : (mapKeys iid).Nodup) (D : Int) :
    (mapFind (iid.foldl addScore md) D).getD 0
      = (mapFind md D).getD 0 + (mapFind iid D).getD 0 := by
  induction iid generalizing md with
  | nil => simp [mapFind]
  | cons p rest ih =>
    obtain ⟨d, v⟩ := p
    simp only [mapKeys, List.map_cons, List.nodup_cons] at hnd
    rw [List.foldl_cons, ih _ hnd.2]
    unfold addScore
    rw [mapFind_mapUpdate]
    by_cases hD : D = d
    · subst hD
      have hnone : mapFind rest D = none := (mapFind_eq_none_iff rest D).2 hnd.1
      simp [hnone, mapFind]
    · simp [hD, mapFind]

theorem mem_mapKeys_mdFold (slova : List (Str × List (Int × R))) (md : List (Int × R))
    (D : Int) :
    D ∈ mapKeys (slova.foldl (fun md e => e.2.foldl addScore md) md)
      ↔ D ∈ mapKeys md ∨ ∃ e ∈ slova, D ∈ mapKeys e.2 := by
  induction slova generalizing md with
  | nil => simp
  | cons e rest ih =>
    rw [List.foldl_cons, ih, mem_mapKeys_addScore_fold]
    simp only [List.mem_cons, exists_eq_or_imp]
    tauto

theorem nodup_mdFold (slova : List (Str × List (Int × R))) (md : List (Int × R))
    (h : (mapKeys md).Nodup) :
    (mapKeys (slova.foldl (fun md e => e.2.foldl addScore md) md)).Nodup := by
  induction slova generalizing md with
  | nil => exact h
  | cons e rest ih =>
    rw [List.foldl_cons]
    exact ih _ (nodup_addScore_fold _ _ h)

theorem value_mdFold (slova : List (Str × List (Int × R))) (md : List (Int × R))
    (hnd : ∀ e ∈ slova, (mapKeys e.2).Nodup) (D : Int) :
    (mapFind (slova.foldl (fun md e => e.2.foldl addScore md) md) D).getD 0
      = (mapFind md D).getD 0 + (slova.map (fun e => (mapFind e.2 D).getD 0)).sum := by
  induction slova generalizing md with
  | nil => simp
  | cons e rest ih =>
    rw [List.foldl_cons, ih _ (fun e1 h1 => hnd e1 (List.mem_cons_of_mem _ h1)),
      value_addScore_fold _ _ (hnd e (List.mem_cons_self _ _))]
    simp [add_assoc]

theorem foldl_push_eq_map {α β : Type} (f : α → β) (l : List α) (init : List β) :
    l.foldl (fun acc p => acc ++ [f p]) init = init ++ l.map f := by
  induction l generalizing init with
  | nil => simp
  | cons a rest ih => simp [ih]

/-- The map `md` of `FindAllDocuments`, and its list of documents. -/
theorem FindAllDocuments_eq (log : R → R) (s : SearchServer R) (q : Query) :
    FindAllDocuments log s q
      = ((q.plus_.foldl (scoreStep log s q) []).foldl
          (fun md e => e.2.foldl addScore md) ([] : List (Int × R))).map
            (fun p => ({ id := p.1, relevance := p.2 } : Document R)) := by
  unfold FindAllDocuments
  simp only []
  rw [foldl_push_eq_map]
  simp

theorem FindAllDocuments_ids_nodup (log : R → R) (s : SearchServer R) (q : Query) :
    ((FindAllDocuments log s q).map Document.id).Nodup := by
  rw [FindAllDocuments_eq, List.map_map]
  exact nodup_mdFold _ _ (by simp [mapKeys])

theorem scoreFold_empty_index (log : R → R) (s : SearchServer R)
    (hs : s.word_to_documents_freqs_ = []) (q : Query) (ps : List Str)
    (sl : List (Str × List (Int × R))) :
    ps.foldl (scoreStep log s q) sl = sl := by
  induction ps generalizing sl with
  | nil => rfl
  | cons p rest ih =>
    rw [List.foldl_cons, ih]
    unfold scoreStep
    rw [hs]
    split_ifs
    · rfl
    · rfl

theorem posting_slova (log : R → R) (s : SearchServer R) (hs : WellFormed s) (q : Query)
    (T : Str) (D : Int) :
    posting (q.plus_.foldl (scoreStep log s q) []) T D
      = if T ∈ q.plus_ ∧ T ∉ q.minus_ then
          (posting s.word_to_documents_freqs_ T D).map (fun v => v * idf log s T)
        else none := by
  rw [posting_scoreFold log s hs, posting_nil]
  split_ifs
  · cases posting s.word_to_documents_freqs_ T D <;> rfl
  · rfl

theorem posting_of_mem (m : List (Str × List (Int × R))) (hnd : (mapKeys m).Nodup)
    {e : Str × List (Int × R)} (he : e ∈ m) (D : Int) :
    posting m e.1 D = mapFind e.2 D := by
  have : mapFind m e.1 = some e.2 := mapFind_of_mem hnd he
  simp [posting, this]

theorem sum_map_eq_finset_sum {α : Type} [DecidableEq α] (l : List α) (hnd : l.Nodup)
    (g : α → R) (F : Finset α) (hF : F ⊆ l.toFinset) (h0 : ∀ x ∈ l, x ∉ F → g x = 0) :
    (l.map g).sum = Finset.sum F g := by
  rw [← List.sum_toFinset g hnd]
  symm
  apply Finset.sum_subset hF
  intro x hx hxF
  exact h0 x (List.mem_toFinset.1 hx) hxF

/-- Membership in the result of `FindAllDocuments`, for a well-formed index: the
document has a posting for some plus term that is not a minus term, and its
relevance is the TF-IDF sum. -/
theorem mem_FindAllDocuments_iff (log : R → R) (s : SearchServer R) (hs : WellFormed s)
    (q : Query) (d : Document R) :
    d ∈ FindAllDocuments log s q ↔
      (∃ T ∈ q.plus_, T ∉ q.minus_ ∧ (posting s.word_to_documents_freqs_ T d.id).isSome) ∧
        d.relevance = tfidfSum log s q d.id := by
  obtain ⟨D, r⟩ := d
  have hwf := wf_scoreFold log s q q.plus_ [] (by simp [mapKeys]) (by simp)
  have hsl := posting_slova log s hs q
  set sl := q.plus_.foldl (scoreStep log s q) [] with hsldef
  have hmdnd := nodup_mdFold sl [] (by simp [mapKeys])
  have hkeys := mem_mapKeys_mdFold sl [] D
  have hval := value_mdFold sl [] (fun e he => (hwf.2 e he).1) D
  set md := sl.foldl (fun md e => e.2.foldl addScore md) ([] : List (Int × R)) with hmddef
  -- keys of `md`
  have hkey2 : D ∈ mapKeys md ↔
      ∃ T ∈ q.plus_, T ∉ q.minus_ ∧ (posting s.word_to_documents_freqs_ T D).isSome := by
    rw [hkeys]
    simp only [mapKeys, List.map_nil, List.not_mem_nil, false_or]
    constructor
    · rintro ⟨e, he, hD⟩
      have h1 : (posting sl e.1 D).isSome := by
        rw [posting_of_mem sl hwf.1 he D]
        exact (mapFind_isSome_iff e.2 D).2 hD
      rw [hsl] at h1
      by_cases hc : e.1 ∈ q.plus_ ∧ e.1 ∉ q.minus_
      · rw [if_pos hc] at h1
        refine ⟨e.1, hc.1, hc.2, ?_⟩
        cases hp : posting s.word_to_documents_freqs_ e.1 D with
        | none => simp [hp] at h1
        | some v => rfl
      · rw [if_neg hc] at h1
        simp at h1
    · rintro ⟨T, hT1, hT2, hT3⟩
      have h1 : (posting sl T D).isSome := by
        rw [hsl, if_pos ⟨hT1, hT2⟩]
        cases hp : posting s.word_to_documents_freqs_ T D with
        | none => simp [hp] at hT3
        | some v => rfl
      unfold posting at h1
      cases hf : mapFind sl T with
      | none => simp [hf] at h1
      | some inner =>
        simp only [hf, Option.some_bind] at h1
        exact ⟨(T, inner), mapFind_mem hf, (mapFind_isSome_iff inner D).1 h1⟩
  -- value stored in `md`
  have hval2 : (mapFind md D).getD 0 = tfidfSum log s q D := by
    rw [hval]
    simp only [mapFind, Option.getD_none, zero_add]
    have hmap : sl.map (fun e => (mapFind e.2 D).getD 0)
        = (mapKeys sl).map (fun T => (posting sl T D).getD 0) := by
      simp only [mapKeys, List.map_map]
      apply List.map_congr_left
      intro e he
      simp [posting_of_mem sl hwf.1 he D]
    rw [hmap]
    unfold tfidfSum
    rw [sum_map_eq_finset_sum (mapKeys sl) hwf.1 _
      (q.plus_.toFinset.filter
        (fun T => T ∉ q.minus_ ∧ (posting s.word_to_documents_freqs_ T D).isSome))]
    · apply Finset.sum_congr rfl
      intro T hT
      simp only [Finset.mem_filter, List.mem_toFinset] at hT
      rw [hsl, if_pos ⟨hT.1, hT.2.1⟩]
      cases hp : posting s.word_to_documents_freqs_ T D <;> simp
    · intro T hT
      simp only [Finset.mem_filter, List.mem_toFinset] at hT
      rw [List.mem_toFinset, ← mapFind_isSome_iff]
      have h1 : (posting sl T D).isSome := by
        rw [hsl, if_pos ⟨hT.1, hT.2.1⟩]
        cases hp : posting s.word_to_documents_freqs_ T D with
        | none => simp [hp] at hT
        | some v => rfl
      unfold posting at h1
      cases hf : mapFind sl T with
      | none => simp [hf] at h1
      | some inner => rfl
    · intro T _ hTF
      simp only [Finset.mem_filter, List.mem_toFinset, not_and] at hTF
      rw [hsl]
      split_ifs with hc
      · have := hTF hc.1 hc.2
        cases hp : posting s.word_to_documents_freqs_ T D with
        | none => rfl
        | some v => simp [hp] at this
      · rfl
  rw [FindAllDocuments_eq]
  simp only [← hsldef, ← hmddef, List.mem_map, Document.mk.injEq, Prod.exists]
  constructor
  · rintro ⟨a, b, hab, rfl, rfl⟩
    have hf : mapFind md a = some b := mapFind_of_mem hmdnd hab
    refine ⟨hkey2.1 (List.mem_map.2 ⟨(a, b), hab, rfl⟩), ?_⟩
    rw [← hval2, hf]
    rfl
  · rintro ⟨hex, hrel⟩
    have hk : D ∈ mapKeys md := hkey2.2 hex
    cases hf : mapFind md D with
    | none => exact absurd hk ((mapFind_eq_none_iff md D).1 hf)
    | some v =>
      refine ⟨D, v, mapFind_mem hf, rfl, ?_⟩
      show v = r
      have hr : r = tfidfSum log s q D := hrel
      rw [hr, ← hval2, hf]
      rfl

end Scoring

/-! ## `std::sort` and `FindTopDocuments` -/

section Sorting

variable {R : Type} [LinearOrderedField R]

theorem sortInsert_perm {α : Type} (comp : α → α → Bool) (x : α) (l : List α) :
    (sortInsert comp x l).Perm (x :: l) := by
  induction l with
  | nil => simp [sortInsert]
  | cons y ys ih =>
    unfold sortInsert
    split_ifs
    · exact (List.Perm.cons y ih).trans (List.Perm.swap x y ys)
    · exact List.Perm.refl _

theorem sort_perm {α : Type} (comp : α → α → Bool) (l : List α) :
    (sort comp l).Perm l := by
  induction l with
  | nil => simp [sort]
  | cons x xs ih =>
    have h : sort comp (x :: xs) = sortInsert comp x (sort comp xs) := rfl
    rw [h]
    exact (sortInsert_perm comp x _).trans (List.Perm.cons x ih)

theorem sortInsert_byRelevance_sorted (x : Document R) (l : List (Document R))
    (hl : l.Pairwise (fun a b => a.relevance ≥ b.relevance)) :
    (sortInsert byRelevance x l).Pairwise (fun a b => a.relevance ≥ b.relevance) := by
  induction l with
  | nil => simp [sortInsert]
  | cons y ys ih =>
    rw [List.pairwise_cons] at hl
    unfold sortInsert
    by_cases hc : y.relevance > x.relevance
    · simp only [byRelevance, hc, decide_True, if_true]
      refine List.pairwise_cons.2 ⟨?_, ih hl.2⟩
      intro b hb
      rcases List.mem_cons.1 ((sortInsert_perm byRelevance x ys).mem_iff.1 hb) with rfl | hb
      · exact le_of_lt hc
      · exact hl.1 b hb
    · simp only [byRelevance, hc, decide_False, Bool.false_eq_true, if_false]
      have hxy : x.relevance ≥ y.relevance := not_lt.1 hc
      refine List.pairwise_cons.2 ⟨?_, List.pairwise_cons.2 hl⟩
      intro b hb
      rcases List.mem_cons.1 hb with rfl | hb
      · exact hxy
      · exact le_trans (hl.1 b hb) hxy

theorem sort_byRelevance_sorted (l : List (Document R)) :
    (sort byRelevance l).Pairwise (fun a b => a.relevance ≥ b.relevance) := by
  induction l with
  | nil => simp [sort]
  | cons x xs ih =>
    have h : sort byRelevance (x :: xs) = sortInsert byRelevance x (sort byRelevance xs) := rfl
    rw [h]
    exact sortInsert_byRelevance_sorted x _ ih

/-- The `resize` of main.cpp:75-77 is a `take`. -/
theorem FindTopDocuments_eq_take (log : R → R) (s : SearchServer R) (raw_query : Str) :
    FindTopDocuments log s raw_query
      = (sort byRelevance (FindAllDocuments log s (ParseQuery s raw_query))).take
          MAX_RESULT_DOCUMENT_COUNT := by
  unfold FindTopDocuments
  simp only []
  split_ifs with h
  · rfl
  · exact (List.take_of_length_le (not_lt.1 h)).symm

theorem mem_FindAll_of_mem_FindTop (log : R → R) (s : SearchServer R) (raw_query : Str)
    (d : Document R) (h : d ∈ FindTopDocuments log s raw_query) :
    d ∈ FindAllDocuments log s (ParseQuery s raw_query) := by
  rw [FindTopDocuments_eq_take] at h
  exact (sort_perm _ _).mem_iff.1 (List.mem_of_mem_take h)

theorem FindTopDocuments_perm_of_le (log : R → R) (s : SearchServer R) (raw_query : Str)
    (h : (FindAllDocuments log s (ParseQuery s raw_query)).length ≤ MAX_RESULT_DOCUMENT_COUNT) :
    (FindTopDocuments log s raw_query).Perm (FindAllDocuments log s (ParseQuery s raw_query)) := by
  rw [FindTopDocuments_eq_take, List.take_of_length_le]
  · exact sort_perm _ _
  · rw [(sort_perm _ _).length_eq]
    exact h

end Sorting

/-! ## Building the index -/

section Building

variable {R : Type} [LinearOrderedField R]

theorem posting_addFreq_fold (words : List Str) (id : Int) (x : R)
    (m : List (Str × List (Int × R))) (T : Str) (D : Int) :
    posting (words.foldl (fun m word => addFreq m word id x) m) T D
      = if D = id ∧ T ∈ words then some ((posting m T D).getD 0 + (words.count T : R) * x)
        else posting m T D := by
  induction words generalizing m with
  | nil => simp
  | cons w rest ih =>
    rw [List.foldl_cons, ih]
    unfold addFreq
    rw [posting_nested_update]
    by_cases hD : D = id
    · subst hD
      by_cases hw : T = w
      · subst hw
        by_cases hr : T ∈ rest
        · simp [hr, List.count_cons_self]
          ring
        · simp [hr, List.count_eq_zero_of_not_mem hr]
      · have hw2 : ¬ w = T := fun h => hw h.symm
        by_cases hr : T ∈ rest
        · simp [hr, hw, List.count_cons_of_ne hw2]
        · simp [hr, hw]
    · simp [hD]

theorem wf_addFreq_fold (words : List Str) (id : Int) (x : R)
    (m : List (Str × List (Int × R)))
    (h1 : (mapKeys m).Nodup) (h2 : ∀ e ∈ m, (mapKeys e.2).Nodup ∧ e.2 ≠ []) :
    (mapKeys (words.foldl (fun m word => addFreq m word id x) m)).Nodup ∧
      ∀ e ∈ words.foldl (fun m word => addFreq m word id x) m,
        (mapKeys e.2).Nodup ∧ e.2 ≠ [] := by
  induction words generalizing m with
  | nil => exact ⟨h1, h2⟩
  | cons w rest ih =>
    rw [List.foldl_cons]
    have h := nodup_nested_update m w id (fun v => v + x) h1 h2
    exact ih _ h.1 h.2

theorem wf_AddDocument (s : SearchServer R) (hs : WellFormed s) (id : Int) (doc : Str) :
    WellFormed (AddDocument s id doc) :=
  wf_addFreq_fold _ id _ _ hs.1 hs.2

/-- The effect of one `AddDocument` call on every posting. -/
theorem posting_AddDocument (s : SearchServer R) (id : Int) (doc : Str) (T : Str) (D : Int) :
    posting (AddDocument s id doc).word_to_documents_freqs_ T D
      = if D = id ∧ T ∈ SplitIntoWordsNoStop s doc then
          some ((posting s.word_to_documents_freqs_ T D).getD 0
            + ((SplitIntoWordsNoStop s doc).count T : R)
              / ((SplitIntoWordsNoStop s doc).length : R))
        else posting s.word_to_documents_freqs_ T D := by
  unfold AddDocument
  simp only []
  rw [posting_addFreq_fold]
  split_ifs
  · rw [mul_one_div]
  · rfl

theorem SplitIntoWordsNoStop_congr (s t : SearchServer R) (h : s.stop_words_ = t.stop_words_)
    (text : Str) : SplitIntoWordsNoStop s text = SplitIntoWordsNoStop t text := by
  unfold SplitIntoWordsNoStop IsStopWord
  rw [h]

theorem build_snoc (stop : Str) (docs : List (Int × Str)) (d : Int × Str) :
    build (R := R) stop (docs ++ [d]) = AddDocument (build stop docs) d.1 d.2 := by
  simp [build, List.foldl_append]

theorem build_stop_words (stop : Str) (docs : List (Int × Str)) :
    (build (R := R) stop docs).stop_words_
      = (SetStopWords (SearchServer.init (R := R)) stop).stop_words_ := by
  induction docs using List.reverseRecOn with
  | nil => rfl
  | append_singleton docs d ih =>
    rw [build_snoc]
    exact ih

theorem tokens_build_snoc (stop : Str) (docs : List (Int × Str)) (d : Int × Str) (text : Str) :
    SplitIntoWordsNoStop (build (R := R) stop (docs ++ [d])) text
      = SplitIntoWordsNoStop (build (R := R) stop docs) text :=
  SplitIntoWordsNoStop_congr _ _ (by rw [build_stop_words, build_stop_words]) text

theorem wf_build (stop : Str) (docs : List (Int × Str)) :
    WellFormed (build (R := R) stop docs) := by
  induction docs using List.reverseRecOn with
  | nil => exact ⟨by simp [build, SetStopWords, SearchServer.init, mapKeys], by
      simp [build, SetStopWords, SearchServer.init]⟩
  | append_singleton docs d ih =>
    rw [build_snoc]
    exact wf_AddDocument _ ih _ _

theorem allk_build (stop : Str) (docs : List (Int × Str)) :
    (build (R := R) stop docs).allk = (docs.length : Int) := by
  induction docs using List.reverseRecOn with
  | nil => rfl
  | append_singleton docs d ih =>
    rw [build_snoc]
    simp [AddDocument, ih]

/-- A posting exists exactly for the (term, id) pairs of the added documents. -/
theorem posting_build_isSome (stop : Str) (docs : List (Int × Str)) (T : Str) (D : Int) :
    (posting (build (R := R) stop docs).word_to_documents_freqs_ T D).isSome
      ↔ ∃ text, (D, text) ∈ docs ∧ T ∈ SplitIntoWordsNoStop (build (R := R) stop docs) text := by
  induction docs using List.reverseRecOn with
  | nil => simp [build, SetStopWords, SearchServer.init, posting_nil]
  | append_singleton docs d ih =>
    obtain ⟨id, doc⟩ := d
    simp only [tokens_build_snoc]
    rw [build_snoc, posting_AddDocument]
    by_cases hc : D = id ∧ T ∈ SplitIntoWordsNoStop (build (R := R) stop docs) doc
    · rw [if_pos hc]
      simp only [Option.isSome_some, true_iff]
      exact ⟨doc, by simp [hc.1], hc.2⟩
    · rw [if_neg hc, ih]
      constructor
      · rintro ⟨text, h1, h2⟩
        exact ⟨text, List.mem_append_left _ h1, h2⟩
      · rintro ⟨text, h1, h2⟩
        rcases List.mem_append.1 h1 with h | h
        · exact ⟨text, h, h2⟩
        · simp only [List.mem_singleton, Prod.mk.injEq] at h
          exact absurd ⟨h.1, h.2 ▸ h2⟩ hc

/-- With pairwise distinct ids, the stored value is occurrences / length. -/
theorem posting_build_value (stop : Str) (docs : List (Int × Str))
    (hnd : (docs.map Prod.fst).Nodup) (T : Str) (D : Int) (text : Str)
    (hmem : (D, text) ∈ docs) :
    posting (build (R := R) stop docs).word_to_documents_freqs_ T D
      = if T ∈ SplitIntoWordsNoStop (build (R := R) stop docs) text then
          some (((SplitIntoWordsNoStop (build (R := R) stop docs) text).count T : R)
            / ((SplitIntoWordsNoStop (build (R := R) stop docs) text).length : R))
        else none := by
  induction docs using List.reverseRecOn with
  | nil => simp at hmem
  | append_singleton docs d ih =>
    obtain ⟨id, doc⟩ := d
    simp only [tokens_build_snoc]
    rw [build_snoc, posting_AddDocument]
    rw [List.map_append, List.nodup_append] at hnd
    have hid : id ∉ docs.map Prod.fst := by
      intro h
      exact hnd.2.2 h (by simp)
    rcases List.mem_append.1 hmem with h | h
    · have hne : D ≠ id := by
        rintro rfl
        exact hid (List.mem_map.2 ⟨(D, text), h, rfl⟩)
      simp only [hne, false_and, if_false]
      exact ih hnd.1 h
    · simp only [List.mem_singleton, Prod.mk.injEq] at h
      obtain ⟨rfl, rfl⟩ := h
      have hnone : posting (build (R := R) stop docs).word_to_documents_freqs_ T D = none := by
        cases hp : posting (build (R := R) stop docs).word_to_documents_freqs_ T D with
        | none => rfl
        | some v =>
          have := (posting_build_isSome (R := R) stop docs T D).1 (by simp [hp])
          obtain ⟨t, ht, _⟩ := this
          exact absurd (List.mem_map.2 ⟨(D, t), ht, rfl⟩) hid
      simp [hnone]

end Building

/-! ## Tokens and query parsing -/

section Parsing

variable {R : Type} [LinearOrderedField R]

theorem splitStep_fold_nonempty (text : Str) (st : List Str × Str)
    (h : ∀ w ∈ st.1, w ≠ []) : ∀ w ∈ (text.foldl splitStep st).1, w ≠ [] := by
  induction text generalizing st with
  | nil => exact h
  | cons c rest ih =>
    rw [List.foldl_cons]
    apply ih
    unfold splitStep
    split_ifs with h1 h2
    · intro w hw
      rcases List.mem_append.1 hw with hw | hw
      · exact h w hw
      · rw [List.mem_singleton.1 hw]; exact h2
    · exact h
    · exact h

/-- No token returned by `SplitIntoWords` is empty. -/
theorem SplitIntoWords_nonempty (text : Str) : ∀ w ∈ SplitIntoWords text, w ≠ [] := by
  have h := splitStep_fold_nonempty text ([], []) (by simp)
  unfold SplitIntoWords
  simp only []
  split_ifs with h1
  · intro w hw
    rcases List.mem_append.1 hw with hw | hw
    · exact h w hw
    · rw [List.mem_singleton.1 hw]; exact h1
  · exact h

theorem noStop_fold_eq (s : SearchServer R) (ws acc : List Str) :
    ws.foldl (fun words word => if !IsStopWord s word then words ++ [word] else words) acc
      = acc ++ ws.filter (fun w => !IsStopWord s w) := by
  induction ws generalizing acc with
  | nil => simp
  | cons w rest ih =>
    rw [List.foldl_cons, ih]
    by_cases hw : IsStopWord s w = true
    · simp [hw]
    · simp [hw]

/-- The loop of `SplitIntoWordsNoStop` is a filter. -/
theorem SplitIntoWordsNoStop_eq_filter (s : SearchServer R) (text : Str) :
    SplitIntoWordsNoStop s text = (SplitIntoWords text).filter (fun w => !IsStopWord s w) := by
  unfold SplitIntoWordsNoStop
  rw [noStop_fold_eq]
  simp

theorem SplitIntoWordsNoStop_nonempty (s : SearchServer R) (text : Str) :
    ∀ w ∈ SplitIntoWordsNoStop s text, w ≠ [] := by
  intro w hw
  rw [SplitIntoWordsNoStop_eq_filter] at hw
  exact SplitIntoWords_nonempty text w (List.mem_of_mem_filter hw)

theorem head_minus_iff (word r : Str) (h : word.head? = some '-') :
    r = word.drop 1 ↔ '-' :: r = word := by
  cases word with
  | nil => simp at h
  | cons c tl =>
    simp only [List.head?_cons, Option.some.injEq] at h
    subst h
    simp

theorem parseFold_plus (ws : List Str) (q : Query) (w : Str) :
    w ∈ (ws.foldl parseStep q).plus_ ↔ w ∈ q.plus_ ∨ (w ∈ ws ∧ w.head? ≠ some '-') := by
  induction ws generalizing q with
  | nil => simp
  | cons x rest ih =>
    rw [List.foldl_cons, ih]
    unfold parseStep
    by_cases hx : x.head? = some '-'
    · simp only [hx, if_true, List.mem_cons]
      constructor
      · rintro (h | ⟨h1, h2⟩)
        · exact Or.inl h
        · exact Or.inr ⟨Or.inr h1, h2⟩
      · rintro (h | ⟨h1 | h1, h2⟩)
        · exact Or.inl h
        · subst h1; exact absurd hx h2
        · exact Or.inr ⟨h1, h2⟩
    · simp only [hx, if_false, List.mem_cons, mem_setInsert]
      constructor
      · rintro ((h | h) | ⟨h1, h2⟩)
        · subst h; exact Or.inr ⟨Or.inl rfl, hx⟩
        · exact Or.inl h
        · exact Or.inr ⟨Or.inr h1, h2⟩
      · rintro (h | ⟨h1 | h1, h2⟩)
        · exact Or.inl (Or.inr h)
        · exact Or.inl (Or.inl h1)
        · exact Or.inr ⟨h1, h2⟩

theorem parseFold_minus (ws : List Str) (q : Query) (r : Str) :
    r ∈ (ws.foldl parseStep q).minus_ ↔ r ∈ q.minus_ ∨ ('-' :: r) ∈ ws := by
  induction ws generalizing q with
  | nil => simp
  | cons x rest ih =>
    rw [List.foldl_cons, ih]
    unfold parseStep
    by_cases hx : x.head? = some '-'
    · simp only [hx, if_true, List.mem_cons, mem_setInsert, head_minus_iff x r hx]
      tauto
    · have hne : ¬ ('-' :: r = x) := by
        intro h; subst h; simp at hx
      simp only [hx, if_false, List.mem_cons, hne, false_or]

/-- The plus set of a parsed query: the tokens that do not begin with `-`. -/
theorem mem_ParseQuery_plus (s : SearchServer R) (text w : Str) :
    w ∈ (ParseQuery s text).plus_
      ↔ w ∈ SplitIntoWordsNoStop s text ∧ w.head? ≠ some '-' := by
  unfold ParseQuery
  rw [parseFold_plus]
  simp

/-- The minus set of a parsed query: the remainders of the tokens that begin with `-`. -/
theorem mem_ParseQuery_minus (s : SearchServer R) (text r : Str) :
    r ∈ (ParseQuery s text).minus_ ↔ ('-' :: r) ∈ SplitIntoWordsNoStop s text := by
  unfold ParseQuery
  rw [parseFold_minus]
  simp

theorem sorted_parseFold (ws : List Str) (q : Query)
    (h1 : q.plus_.Pairwise (· < ·)) (h2 : q.minus_.Pairwise (· < ·)) :
    (ws.foldl parseStep q).plus_.Pairwise (· < ·) ∧
      (ws.foldl parseStep q).minus_.Pairwise (· < ·) := by
  induction ws generalizing q with
  | nil => exact ⟨h1, h2⟩
  | cons x rest ih =>
    rw [List.foldl_cons]
    apply ih
    · unfold parseStep
      split_ifs
      · exact h1
      · exact sorted_setInsert _ _ h1
    · unfold parseStep
      split_ifs
      · exact sorted_setInsert _ _ h2
      · exact h2

theorem sorted_ParseQuery (s : SearchServer R) (text : Str) :
    (ParseQuery s text).plus_.Pairwise (· < ·) ∧
      (ParseQuery s text).minus_.Pairwise (· < ·) :=
  sorted_parseFold _ _ List.Pairwise.nil List.Pairwise.nil

end Parsing

/-! ## Postings and document frequency -/

section Postings

variable {R : Type} [LinearOrderedField R]

theorem mem_PostingsFor_iff (s : SearchServer R) (T : Str) (D : Int) :
    D ∈ mapKeys (PostingsFor s T) ↔ (posting s.word_to_documents_freqs_ T D).isSome := by
  unfold PostingsFor posting
  cases hf : mapFind s.word_to_documents_freqs_ T with
  | none => simp [mapKeys]
  | some inner => simpa using (mapFind_isSome_iff inner D).symm

theorem nodup_PostingsFor (s : SearchServer R) (hs : WellFormed s) (T : Str) :
    (mapKeys (PostingsFor s T)).Nodup := by
  unfold PostingsFor
  cases hf : mapFind s.word_to_documents_freqs_ T with
  | none => simp [mapKeys]
  | some inner => simpa using (hs.2 _ (mapFind_mem hf)).1

/-- With pairwise distinct ids, the size of the inner map of `T` is the number
of documents containing `T`. -/
theorem PostingsFor_length_build (stop : Str) (docs : List (Int × Str))
    (hnd : (docs.map Prod.fst).Nodup) (T : Str) :
    (PostingsFor (build (R := R) stop docs) T).length = df (build (R := R) stop docs) docs T := by
  have h1 := nodup_PostingsFor (build (R := R) stop docs) (wf_build stop docs) T
  have h2 : ((docs.filter (fun d =>
      decide (T ∈ SplitIntoWordsNoStop (build (R := R) stop docs) d.2))).map Prod.fst).Nodup :=
    List.Nodup.sublist (List.Sublist.map _ (List.filter_sublist _)) hnd
  have hperm := (List.perm_ext_iff_of_nodup h1 h2).2 (by
    intro D
    rw [mem_PostingsFor_iff, posting_build_isSome]
    simp only [List.mem_map, List.mem_filter, decide_eq_true_eq, Prod.exists,
      exists_and_right, exists_eq_right])
  have := hperm.length_eq
  simpa [mapKeys, df] using this

end Postings

/-! ## The worked example -/

section Example

variable {R : Type} [LinearOrderedField R]

theorem example_stop_words : (build (R := R) [] exampleCorpus).stop_words_ = [] := by
  rw [build_stop_words]
  have h : SplitIntoWords [] = [] := by decide
  simp [SetStopWords, SearchServer.init, h]

theorem example_query :
    ParseQuery (build (R := R) [] exampleCorpus) exampleQuery
      = { plus_ := [['a']], minus_ := [['b']] } := by
  have h : SplitIntoWords exampleQuery = [['a'], ['-', 'b']] := by decide
  simp [ParseQuery, SplitIntoWordsNoStop, IsStopWord, example_stop_words, h]
  decide

theorem example_index :
    (build (R := R) [] exampleCorpus).word_to_documents_freqs_
      = [(['a'], [(0, 1 / 3), (1, 1 / 2)]), (['b'], [(0, 1 / 3), (2, 1)]),
          (['c'], [(0, 1 / 3), (1, 1 / 2)])] := by
  have h0 : SplitIntoWords ['a', ' ', 'b', ' ', 'c'] = [['a'], ['b'], ['c']] := by decide
  have h1 : SplitIntoWords ['a', ' ', 'c'] = [['a'], ['c']] := by decide
  have h2 : SplitIntoWords ['b'] = [['b']] := by decide
  have h3 : SplitIntoWords [] = [] := by decide
  simp [build, exampleCorpus, AddDocument, SetStopWords, SearchServer.init,
    SplitIntoWordsNoStop, IsStopWord, h0, h1, h2, h3, addFreq, mapUpdate, mapFind,
    mapInsert, mapModify]

theorem example_allk : (build (R := R) [] exampleCorpus).allk = 3 := by
  rw [allk_build]
  rfl

/-- The untruncated, unsorted match list of the worked example. -/
theorem example_FindAllDocuments (log : R → R) :
    FindAllDocuments log (build (R := R) [] exampleCorpus)
        (ParseQuery (build (R := R) [] exampleCorpus) exampleQuery)
      = [{ id := 0, relevance := 1 / 3 * log (3 / 2) },
          { id := 1, relevance := 1 / 2 * log (3 / 2) }] := by
  rw [example_query]
  simp only [FindAllDocuments, scoreStep, List.foldl_cons, List.foldl_nil]
  rw [example_index, example_allk]
  simp [setScore, addScore, mapUpdate, mapFind, mapInsert, mapModify]

/-- The result of the worked example over the reals: document 1, then document 0. -/
theorem example_FindTopDocuments :
    FindTopDocuments Real.log (build (R := ℝ) [] exampleCorpus) exampleQuery
      = [{ id := 1, relevance := 1 / 2 * Real.log (3 / 2) },
          { id := 0, relevance := 1 / 3 * Real.log (3 / 2) }] := by
  have hpos : 0 < Real.log (3 / 2) := Real.log_pos (by norm_num)
  have hlt : (3 : ℝ)⁻¹ * Real.log (3 / 2) < 2⁻¹ * Real.log (3 / 2) :=
    mul_lt_mul_of_pos_right (by norm_num) hpos
  rw [FindTopDocuments_eq_take, example_FindAllDocuments]
  simp [sort, sortInsert, byRelevance, hlt, MAX_RESULT_DOCUMENT_COUNT]

end Example

/-! ## Claims about ranking: C1 to C4 -/

section RankingClaims

variable {R : Type} [LinearOrderedField R]

/-- C1 as stated fails on the worked example: "b" is a minus term of the query
"a -b" and not a plus term, document 0 ("a b c") has a posting for "b", and yet
document 0 is returned: the result lists document 1 and then document 0. -/
theorem C1_minus_veto_counterexample :
    (['b'] ∈ (ParseQuery (build (R := ℝ) [] exampleCorpus) exampleQuery).minus_ ∧
      ['b'] ∉ (ParseQuery (build (R := ℝ) [] exampleCorpus) exampleQuery).plus_ ∧
      (0 : Int) ∈ mapKeys (PostingsFor (build (R := ℝ) [] exampleCorpus) ['b'])) ∧
    (∃ d ∈ FindTopDocuments Real.log (build (R := ℝ) [] exampleCorpus) exampleQuery, d.id = 0) ∧
    (FindTopDocuments Real.log (build (R := ℝ) [] exampleCorpus) exampleQuery).map Document.id
      = [1, 0] := by
  refine ⟨⟨?_, ?_, ?_⟩, ?_, ?_⟩
  · rw [example_query]; simp
  · rw [example_query]; decide
  · rw [PostingsFor, example_index]
    simp [mapFind, mapKeys]
  · rw [example_FindTopDocuments]; simp
  · rw [example_FindTopDocuments]; simp

/-- C1, amended: minus terms veto no document. For every index built by
`AddDocument` and every query, a document id is in the match list of
`FindAllDocuments` exactly when the document has a posting for a plus term that
is not also a minus term, whatever minus terms it contains; and every document
returned by `FindTopDocuments` has such a posting.  So a document with a posting
for a minus term is absent only if it has no posting for a scoring plus term
(or is cut by the truncation to five). -/
theorem C1_minus_terms_only_cancel (log : R → R) (stop : Str) (docs : List (Int × Str))
    (raw : Str) :
    (∀ D : Int,
      D ∈ (FindAllDocuments log (build stop docs) (ParseQuery (build (R := R) stop docs) raw)).map
          Document.id
        ↔ ∃ T ∈ (ParseQuery (build (R := R) stop docs) raw).plus_,
            T ∉ (ParseQuery (build (R := R) stop docs) raw).minus_ ∧
              D ∈ mapKeys (PostingsFor (build (R := R) stop docs) T)) ∧
    (∀ d ∈ FindTopDocuments log (build stop docs) raw,
      ∃ T ∈ (ParseQuery (build (R := R) stop docs) raw).plus_,
        T ∉ (ParseQuery (build (R := R) stop docs) raw).minus_ ∧
          d.id ∈ mapKeys (PostingsFor (build (R := R) stop docs) T)) := by
  have hwf := wf_build (R := R) stop docs
  constructor
  · intro D
    simp only [mem_PostingsFor_iff]
    constructor
    · intro h
      obtain ⟨d, hd, rfl⟩ := List.mem_map.1 h
      exact ((mem_FindAllDocuments_iff log _ hwf _ d).1 hd).1
    · intro h
      have := (mem_FindAllDocuments_iff log _ hwf (ParseQuery (build (R := R) stop docs) raw)
        { id := D, relevance := tfidfSum log (build stop docs)
            (ParseQuery (build (R := R) stop docs) raw) D }).2 ⟨h, rfl⟩
      exact List.mem_map.2 ⟨_, this, rfl⟩
  · intro d hd
    simp only [mem_PostingsFor_iff]
    exact ((mem_FindAllDocuments_iff log _ hwf _ d).1
      (mem_FindAll_of_mem_FindTop log _ raw d hd)).1

/-- C2: for an index built from documents with pairwise distinct ids, every
document returned by `FindTopDocuments` has relevance equal to the sum, over the
plus terms that are not minus terms and occur in the document, of
`tf * log (document count / df)`; the same value is the sum of the stored term
frequencies times `idf` (`tfidfSum`). -/
theorem C2_tfidf_score (log : R → R) (stop : Str) (docs : List (Int × Str))
    (hnd : (docs.map Prod.fst).Nodup) (raw : Str) (d : Document R)
    (hd : d ∈ FindTopDocuments log (build stop docs) raw) :
    d.relevance
        = tfidfSum log (build stop docs) (ParseQuery (build (R := R) stop docs) raw) d.id ∧
    ∃ text, (d.id, text) ∈ docs ∧
      d.relevance
        = Finset.sum
            ((ParseQuery (build (R := R) stop docs) raw).plus_.toFinset.filter
              (fun T => T ∉ (ParseQuery (build (R := R) stop docs) raw).minus_ ∧
                T ∈ SplitIntoWordsNoStop (build (R := R) stop docs) text))
            (fun T => tf (SplitIntoWordsNoStop (build (R := R) stop docs) text) T
              * log ((docs.length : R) / (df (build (R := R) stop docs) docs T : R))) := by
  have hwf := wf_build (R := R) stop docs
  obtain ⟨⟨T0, _, _, hT0⟩, hrel⟩ := (mem_FindAllDocuments_iff log _ hwf _ d).1
    (mem_FindAll_of_mem_FindTop log _ raw d hd)
  obtain ⟨text, hmem, _⟩ := (posting_build_isSome (R := R) stop docs T0 d.id).1 hT0
  refine ⟨hrel, text, hmem, ?_⟩
  rw [hrel]
  unfold tfidfSum
  have hpost := fun T => posting_build_value (R := R) stop docs hnd T d.id text hmem
  apply Finset.sum_congr
  · ext T
    simp only [Finset.mem_filter, List.mem_toFinset, hpost T]
    by_cases hT : T ∈ SplitIntoWordsNoStop (build (R := R) stop docs) text <;> simp [hT]
  · intro T hT
    simp only [Finset.mem_filter, List.mem_toFinset, hpost T] at hT
    have hT2 : T ∈ SplitIntoWordsNoStop (build (R := R) stop docs) text := by
      by_contra hc
      simp [hc] at hT
    have hidf : idf log (build stop docs) T
        = log ((docs.length : R) / (df (build (R := R) stop docs) docs T : R)) := by
      unfold idf
      rw [allk_build, PostingsFor_length_build stop docs hnd T, Int.cast_natCast]
    rw [hpost T, if_pos hT2, hidf]
    rfl

/-- C2 on the worked example: document 1 is returned for "a -b" with relevance
`(1/2) * ln (3/2)`, and that value is the TF-IDF sum. -/
theorem C2_tfidf_score_witness :
    (exampleCorpus.map Prod.fst).Nodup ∧
    ({ id := 1, relevance := 1 / 2 * Real.log (3 / 2) } : Document ℝ)
      ∈ FindTopDocuments Real.log (build [] exampleCorpus) exampleQuery ∧
    ((1 / 2 * Real.log (3 / 2) : ℝ)
        = tfidfSum Real.log (build [] exampleCorpus)
            (ParseQuery (build (R := ℝ) [] exampleCorpus) exampleQuery) 1 ∧
      ∃ text, ((1 : Int), text) ∈ exampleCorpus ∧
        (1 / 2 * Real.log (3 / 2) : ℝ)
          = Finset.sum
              ((ParseQuery (build (R := ℝ) [] exampleCorpus) exampleQuery).plus_.toFinset.filter
                (fun T => T ∉ (ParseQuery (build (R := ℝ) [] exampleCorpus) exampleQuery).minus_ ∧
                  T ∈ SplitIntoWordsNoStop (build (R := ℝ) [] exampleCorpus) text))
              (fun T => tf (SplitIntoWordsNoStop (build (R := ℝ) [] exampleCorpus) text) T
                * Real.log ((exampleCorpus.length : ℝ)
                    / (df (build (R := ℝ) [] exampleCorpus) exampleCorpus T : ℝ)))) :=
  have h1 : (exampleCorpus.map Prod.fst).Nodup := by decide
  have h2 : ({ id := 1, relevance := 1 / 2 * Real.log (3 / 2) } : Document ℝ)
      ∈ FindTopDocuments Real.log (build [] exampleCorpus) exampleQuery := by
    rw [example_FindTopDocuments]; simp
  ⟨h1, h2, C2_tfidf_score Real.log [] exampleCorpus h1 exampleQuery _ h2⟩

/-- C3: the list returned by `FindTopDocuments` is sorted by non-increasing
relevance: each entry's relevance is at least that of the next entry (and of
every later entry). -/
theorem C3_ranking_order (log : R → R) (s : SearchServer R) (raw : Str) :
    (FindTopDocuments log s raw).Chain' (fun a b => a.relevance ≥ b.relevance) ∧
    (FindTopDocuments log s raw).Pairwise (fun a b => a.relevance ≥ b.relevance) := by
  have h : (FindTopDocuments log s raw).Pairwise (fun a b => a.relevance ≥ b.relevance) := by
    rw [FindTopDocuments_eq_take]
    exact (sort_byRelevance_sorted _).sublist (List.take_sublist _ _)
  exact ⟨h.chain', h⟩

/-- C4 as stated fails on the worked example: for the query "a -b" two documents
are returned, but only one document of the corpus contains a scoring plus term
and no vetoing minus term. -/
theorem C4_top_k_bound_counterexample :
    (FindTopDocuments Real.log (build (R := ℝ) [] exampleCorpus) exampleQuery).length = 2 ∧
    (exampleCorpus.filter (fun d =>
        hasScoringTerm (build (R := ℝ) [] exampleCorpus)
            (ParseQuery (build (R := ℝ) [] exampleCorpus) exampleQuery) d.2
          && !hasVetoTerm (build (R := ℝ) [] exampleCorpus)
            (ParseQuery (build (R := ℝ) [] exampleCorpus) exampleQuery) d.2)).length = 1 ∧
    ¬ ((FindTopDocuments Real.log (build (R := ℝ) [] exampleCorpus) exampleQuery).length
        ≤ (exampleCorpus.filter (fun d =>
            hasScoringTerm (build (R := ℝ) [] exampleCorpus)
                (ParseQuery (build (R := ℝ) [] exampleCorpus) exampleQuery) d.2
              && !hasVetoTerm (build (R := ℝ) [] exampleCorpus)
                (ParseQuery (build (R := ℝ) [] exampleCorpus) exampleQuery) d.2)).length) := by
  have h0 : SplitIntoWords ['a', ' ', 'b', ' ', 'c'] = [['a'], ['b'], ['c']] := by decide
  have h1 : SplitIntoWords ['a', ' ', 'c'] = [['a'], ['c']] := by decide
  have h2 : SplitIntoWords ['b'] = [['b']] := by decide
  have hlen : (FindTopDocuments Real.log (build (R := ℝ) [] exampleCorpus) exampleQuery).length
      = 2 := by
    rw [example_FindTopDocuments]; rfl
  have hcount : (exampleCorpus.filter (fun d =>
        hasScoringTerm (build (R := ℝ) [] exampleCorpus)
            (ParseQuery (build (R := ℝ) [] exampleCorpus) exampleQuery) d.2
          && !hasVetoTerm (build (R := ℝ) [] exampleCorpus)
            (ParseQuery (build (R := ℝ) [] exampleCorpus) exampleQuery) d.2)).length = 1 := by
    rw [example_query]
    simp only [hasScoringTerm, hasVetoTerm, SplitIntoWordsNoStop_eq_filter, IsStopWord,
      example_stop_words, exampleCorpus, h0, h1, h2]
    decide
  refine ⟨hlen, hcount, ?_⟩
  rw [hlen, hcount]
  decide

/-- C4, amended: the result has at most `MAX_RESULT_DOCUMENT_COUNT = 5` entries
and at most as many entries as there are documents containing a plus term that
is not also a minus term (minus terms exclude no document). -/
theorem C4_top_k_bound (log : R → R) (stop : Str) (docs : List (Int × Str)) (raw : Str) :
    (FindTopDocuments log (build stop docs) raw).length ≤ MAX_RESULT_DOCUMENT_COUNT ∧
    MAX_RESULT_DOCUMENT_COUNT = 5 ∧
    (FindTopDocuments log (build stop docs) raw).length
      ≤ (docs.filter (fun d =>
          hasScoringTerm (build (R := R) stop docs)
            (ParseQuery (build (R := R) stop docs) raw) d.2)).length := by
  have hwf := wf_build (R := R) stop docs
  refine ⟨?_, rfl, ?_⟩
  · rw [FindTopDocuments_eq_take]
    exact List.length_take_le _ _
  · have h1 : (FindTopDocuments log (build stop docs) raw).length
        ≤ ((FindAllDocuments log (build stop docs)
            (ParseQuery (build (R := R) stop docs) raw)).map Document.id).length := by
      rw [FindTopDocuments_eq_take, List.length_map]
      exact le_trans (List.length_take_le' _ _) (le_of_eq (sort_perm byRelevance _).length_eq)
    have h2 : ((FindAllDocuments log (build stop docs)
          (ParseQuery (build (R := R) stop docs) raw)).map Document.id).length
        ≤ ((docs.filter (fun d =>
            hasScoringTerm (build (R := R) stop docs)
              (ParseQuery (build (R := R) stop docs) raw) d.2)).map Prod.fst).length := by
      apply List.Subperm.length_le
      apply List.Nodup.subperm (FindAllDocuments_ids_nodup log _ _)
      intro D hD
      obtain ⟨d, hd, rfl⟩ := List.mem_map.1 hD
      obtain ⟨⟨T, hT1, hT2, hT3⟩, _⟩ := (mem_FindAllDocuments_iff log _ hwf _ d).1 hd
      obtain ⟨text, hmem, htok⟩ := (posting_build_isSome (R := R) stop docs T d.id).1 hT3
      refine List.mem_map.2 ⟨(d.id, text), List.mem_filter.2 ⟨hmem, ?_⟩, rfl⟩
      simp only [hasScoringTerm, List.any_eq_true, Bool.and_eq_true, decide_eq_true_eq]
      exact ⟨T, hT1, hT2, htok⟩
    rw [List.length_map] at h2
    exact le_trans h1 (by simpa using h2)

end RankingClaims

/-! ## Claims about the index: C5 to C7 -/

section IndexClaims

variable {R : Type} [LinearOrderedField R]

/-- C5: after `SetStopWords` and any sequence of `AddDocument` calls with pairwise
distinct ids, an entry for term `T` and document `D` exists exactly when `T`
occurs in the filtered tokens of a document added under id `D`, and for the
document added under `D` the stored value is (occurrences of `T`) / (number of
tokens), both counted after stop-word removal. -/
theorem C5_term_frequency (stop : Str) (docs : List (Int × Str))
    (hnd : (docs.map Prod.fst).Nodup) (T : Str) (D : Int) :
    ((posting (build (R := R) stop docs).word_to_documents_freqs_ T D).isSome
      ↔ ∃ text, (D, text) ∈ docs ∧ T ∈ SplitIntoWordsNoStop (build (R := R) stop docs) text) ∧
    (∀ text, (D, text) ∈ docs →
      posting (build (R := R) stop docs).word_to_documents_freqs_ T D
        = if T ∈ SplitIntoWordsNoStop (build (R := R) stop docs) text then
            some (tf (SplitIntoWordsNoStop (build (R := R) stop docs) text) T)
          else none) :=
  ⟨posting_build_isSome stop docs T D,
    fun text hmem => posting_build_value stop docs hnd T D text hmem⟩

/-- C5 on the worked example: term "a" and document 1 ("a c"). -/
theorem C5_term_frequency_witness :
    (exampleCorpus.map Prod.fst).Nodup ∧
    (((posting (build (R := ℚ) [] exampleCorpus).word_to_documents_freqs_ ['a'] 1).isSome
      ↔ ∃ text, ((1 : Int), text) ∈ exampleCorpus ∧
          ['a'] ∈ SplitIntoWordsNoStop (build (R := ℚ) [] exampleCorpus) text) ∧
    (∀ text, ((1 : Int), text) ∈ exampleCorpus →
      posting (build (R := ℚ) [] exampleCorpus).word_to_documents_freqs_ ['a'] 1
        = if ['a'] ∈ SplitIntoWordsNoStop (build (R := ℚ) [] exampleCorpus) text then
            some (tf (SplitIntoWordsNoStop (build (R := ℚ) [] exampleCorpus) text) ['a'])
          else none)) :=
  have h1 : (exampleCorpus.map Prod.fst).Nodup := by decide
  ⟨h1, C5_term_frequency [] exampleCorpus h1 ['a'] 1⟩

theorem count_sum_over_keys (keys words : List Str) (hnd : keys.Nodup)
    (hsub : ∀ w ∈ words, w ∈ keys) (hne : words ≠ []) :
    (keys.map (fun T => ((words.count T : R) / (words.length : R)))).sum = 1 := by
  rw [sum_map_eq_finset_sum keys hnd _ words.toFinset]
  · have hsum : Finset.sum words.toFinset (fun T => words.count T) = words.length := by
      convert List.sum_toFinset_count_eq_length words
    rw [← Finset.sum_div, ← Nat.cast_sum, hsum]
    have : (words.length : R) ≠ 0 := by
      simpa using hne
    exact div_self this
  · intro w hw
    exact List.mem_toFinset.2 (hsub w (List.mem_toFinset.1 hw))
  · intro T _ hT
    have : T ∉ words := fun h => hT (List.mem_toFinset.2 h)
    simp [List.count_eq_zero_of_not_mem this]

/-- C6: after `AddDocument` calls with pairwise distinct ids, for every added
document whose token list is non-empty after stop-word removal, the stored term
frequencies of the document, summed over all indexed terms, add up to exactly 1. -/
theorem C6_frequency_normalization (stop : Str) (docs : List (Int × Str))
    (hnd : (docs.map Prod.fst).Nodup) (D : Int) (text : Str) (hmem : (D, text) ∈ docs)
    (hne : SplitIntoWordsNoStop (build (R := R) stop docs) text ≠ []) :
    ((mapKeys (build (R := R) stop docs).word_to_documents_freqs_).map
      (fun T => (posting (build (R := R) stop docs).word_to_documents_freqs_ T D).getD 0)).sum
      = 1 := by
  have hwf := wf_build (R := R) stop docs
  have hval := fun T => posting_build_value (R := R) stop docs hnd T D text hmem
  have hfun : (fun T => (posting (build (R := R) stop docs).word_to_documents_freqs_ T D).getD 0)
      = fun T => (((SplitIntoWordsNoStop (build (R := R) stop docs) text).count T : R)
          / ((SplitIntoWordsNoStop (build (R := R) stop docs) text).length : R)) := by
    funext T
    rw [hval T]
    split_ifs with h
    · rfl
    · simp [List.count_eq_zero_of_not_mem h]
  rw [hfun]
  apply count_sum_over_keys _ _ hwf.1 _ hne
  intro w hw
  have hsome : (posting (build (R := R) stop docs).word_to_documents_freqs_ w D).isSome := by
    rw [hval w, if_pos hw]; rfl
  rw [← mapFind_isSome_iff]
  unfold posting at hsome
  cases hf : mapFind (build (R := R) stop docs).word_to_documents_freqs_ w with
  | none => simp [hf] at hsome
  | some inner => rfl

/-- C6 on the worked example: the frequencies stored for document 0 ("a b c")
sum to 1. -/
theorem C6_frequency_normalization_witness :
    (exampleCorpus.map Prod.fst).Nodup ∧
    ((0 : Int), ['a', ' ', 'b', ' ', 'c']) ∈ exampleCorpus ∧
    SplitIntoWordsNoStop (build (R := ℚ) [] exampleCorpus) ['a', ' ', 'b', ' ', 'c'] ≠ [] ∧
    ((mapKeys (build (R := ℚ) [] exampleCorpus).word_to_documents_freqs_).map
      (fun T => (posting (build (R := ℚ) [] exampleCorpus).word_to_documents_freqs_ T 0).getD 0)).sum
      = 1 :=
  have h1 : (exampleCorpus.map Prod.fst).Nodup := by decide
  have h2 : ((0 : Int), ['a', ' ', 'b', ' ', 'c']) ∈ exampleCorpus := by decide
  have h3 : SplitIntoWordsNoStop (build (R := ℚ) [] exampleCorpus) ['a', ' ', 'b', ' ', 'c']
      ≠ [] := by
    have h0 : SplitIntoWords ['a', ' ', 'b', ' ', 'c'] = [['a'], ['b'], ['c']] := by decide
    simp [SplitIntoWordsNoStop_eq_filter, IsStopWord, example_stop_words, h0]
  ⟨h1, h2, h3, C6_frequency_normalization [] exampleCorpus h1 0 _ h2 h3⟩

/-- C7 as stated fails: adding the text "a" under id 0 a second time is not
rejected; it raises the document count from 1 to 2 and the stored frequency of
("a", 0) from 1 to 2. -/
theorem C7_duplicate_id_counterexample :
    (AddDocument (SearchServer.init (R := ℚ)) 0 ['a']).allk = 1 ∧
    (AddDocument (AddDocument (SearchServer.init (R := ℚ)) 0 ['a']) 0 ['a']).allk = 2 ∧
    posting (AddDocument (SearchServer.init (R := ℚ)) 0 ['a']).word_to_documents_freqs_ ['a'] 0
      = some 1 ∧
    posting (AddDocument (AddDocument (SearchServer.init (R := ℚ)) 0 ['a']) 0
        ['a']).word_to_documents_freqs_ ['a'] 0 = some 2 := by
  have h : SplitIntoWords ['a'] = [['a']] := by decide
  refine ⟨rfl, rfl, ?_, ?_⟩
  · simp [AddDocument, SearchServer.init, SplitIntoWordsNoStop, IsStopWord, h, addFreq,
      mapUpdate, mapFind, mapInsert, mapModify, posting, splitStep]
  · simp [AddDocument, SearchServer.init, SplitIntoWordsNoStop, IsStopWord, h, addFreq,
      mapUpdate, mapFind, mapInsert, mapModify, posting, splitStep]
    norm_num

/-- C7, amended: `AddDocument` has no failure path and does not look at earlier
ids. For every state, id and text the call increments the document count by
one, keeps the stop words, and for every token `T` of the text adds
(occurrences of `T`) / (number of tokens) to the value stored for `(T, id)`
(starting from 0 when there is no entry); every other entry is unchanged. With
an id used before, the new frequencies are therefore added to the old ones. -/
theorem C7_add_document_accumulates (s : SearchServer R) (id : Int) (doc : Str) :
    (AddDocument s id doc).allk = s.allk + 1 ∧
    (AddDocument s id doc).stop_words_ = s.stop_words_ ∧
    ∀ (T : Str) (D : Int),
      posting (AddDocument s id doc).word_to_documents_freqs_ T D
        = if D = id ∧ T ∈ SplitIntoWordsNoStop s doc then
            some ((posting s.word_to_documents_freqs_ T D).getD 0
              + tf (SplitIntoWordsNoStop s doc) T)
          else posting s.word_to_documents_freqs_ T D :=
  ⟨rfl, rfl, fun T D => posting_AddDocument s id doc T D⟩

end IndexClaims

/-! ## Claims about query parsing and the empty corpus: C8 to C10 -/

section QueryClaims

variable {R : Type} [LinearOrderedField R]

/-- C8 as stated fails: for the query "-" the parser inserts the empty string
into the minus set. -/
theorem C8_bare_minus_counterexample :
    ([] : Str) ∈ (ParseQuery (SearchServer.init (R := ℚ)) ['-']).minus_ ∧
    (ParseQuery (SearchServer.init (R := ℚ)) ['-']) = { plus_ := [], minus_ := [[]] } := by
  constructor <;> decide

/-- C8, amended: a token that is exactly "-" adds nothing to the plus set and
adds the empty string to the minus set. The empty string is never in the plus
set, and it is in the minus set exactly when some token of the query (after
stop-word removal) is "-". -/
theorem C8_bare_minus (s : SearchServer R) (text : Str) :
    ([] : Str) ∉ (ParseQuery s text).plus_ ∧
    (([] : Str) ∈ (ParseQuery s text).minus_ ↔ ['-'] ∈ SplitIntoWordsNoStop s text) ∧
    ['-'] ∉ (ParseQuery s text).plus_ := by
  refine ⟨?_, mem_ParseQuery_minus s text [], ?_⟩
  · intro h
    exact SplitIntoWordsNoStop_nonempty s text [] ((mem_ParseQuery_plus s text []).1 h).1 rfl
  · intro h
    exact ((mem_ParseQuery_plus s text ['-']).1 h).2 rfl

/-- C9 as stated fails: for the query "-" the minus set is not the set of
non-empty remainders of the tokens beginning with `-` (that set is empty, the
minus set holds the empty string). -/
theorem C9_query_classification_counterexample :
    ¬ (∀ r : Str, r ∈ (ParseQuery (SearchServer.init (R := ℚ)) ['-']).minus_
        ↔ (r ≠ [] ∧ ('-' :: r) ∈ SplitIntoWordsNoStop (SearchServer.init (R := ℚ)) ['-'])) := by
  intro h
  have h1 : ([] : Str) ∈ (ParseQuery (SearchServer.init (R := ℚ)) ['-']).minus_ := by decide
  exact ((h []).1 h1).1 rfl

/-- C9, amended: with `W` the space-separated tokens of the query that are not
stop words, the plus set is exactly the set of tokens of `W` that do not begin
with `-`, and the minus set is exactly the set of strings `r`, the empty string
included, such that `-` followed by `r` is in `W`; only one `-` is stripped.
Both sets are stored in strictly ascending order, hence without duplicates. -/
theorem C9_query_classification (s : SearchServer R) (text : Str) :
    (∀ w : Str, w ∈ (ParseQuery s text).plus_
      ↔ w ∈ SplitIntoWordsNoStop s text ∧ w.head? ≠ some '-') ∧
    (∀ r : Str, r ∈ (ParseQuery s text).minus_ ↔ ('-' :: r) ∈ SplitIntoWordsNoStop s text) ∧
    (ParseQuery s text).plus_.Pairwise (· < ·) ∧
    (ParseQuery s text).minus_.Pairwise (· < ·) := by
  refine ⟨mem_ParseQuery_plus s text, mem_ParseQuery_minus s text, ?_, ?_⟩
  · exact (sorted_ParseQuery s text).1
  · exact (sorted_ParseQuery s text).2

/-- C10: on a server without documents (empty index, document count 0), for every
stop-word set, every query and every function `log`, `FindTopDocuments` returns
the empty list, and the expression `log(allk / size)` of main.cpp:128 is
evaluated for no term. -/
theorem C10_empty_corpus (log : R → R) (sw : List Str) (raw : Str) :
    FindTopDocuments log
        { word_to_documents_freqs_ := [], stop_words_ := sw, allk := 0 } raw = [] ∧
    idfCalls ({ word_to_documents_freqs_ := [], stop_words_ := sw, allk := 0 } : SearchServer R)
        (ParseQuery ({ word_to_documents_freqs_ := [], stop_words_ := sw, allk := 0 } :
          SearchServer R) raw) = [] := by
  constructor
  · rw [FindTopDocuments_eq_take, FindAllDocuments_eq, scoreFold_empty_index _ _ rfl]
    rfl
  · unfold idfCalls
    rw [List.filterMap_eq_nil_iff]
    intro qw _
    split_ifs
    · rfl
    · simp [mapFind]

end QueryClaims

/-! ## Queries with the same scoring terms -/

section QueryEquivalence

variable {R : Type} [LinearOrderedField R]

theorem sorted_eq_of_mem_iff (l1 l2 : List Str) (h1 : l1.Pairwise (· < ·))
    (h2 : l2.Pairwise (· < ·)) (h : ∀ a, a ∈ l1 ↔ a ∈ l2) : l1 = l2 := by
  have n1 : l1.Nodup := h1.imp (fun h => ne_of_lt h)
  have n2 : l2.Nodup := h2.imp (fun h => ne_of_lt h)
  exact List.eq_of_perm_of_sorted ((List.perm_ext_iff_of_nodup n1 n2).2 h) h1 h2

/-- The loop body reads the query only to test whether the word is a minus word. -/
theorem scoreStep_skip (log : R → R) (s : SearchServer R) (q : Query)
    (sl : List (Str × List (Int × R))) (qw : Str) :
    scoreStep log s q sl qw
      = if qw ∈ q.minus_ then sl
        else scoreStep log s { plus_ := [], minus_ := [] } sl qw := by
  unfold scoreStep
  by_cases h : qw ∈ q.minus_ <;> simp [h]

theorem scoreFold_filter (log : R → R) (s : SearchServer R) (q : Query) (ps : List Str)
    (sl : List (Str × List (Int × R))) :
    ps.foldl (scoreStep log s q) sl
      = (ps.filter (fun T => decide (T ∉ q.minus_))).foldl
          (scoreStep log s { plus_ := [], minus_ := [] }) sl := by
  induction ps generalizing sl with
  | nil => rfl
  | cons p rest ih =>
    rw [List.foldl_cons, ih, scoreStep_skip]
    by_cases h : p ∈ q.minus_
    · simp [h]
    · simp [h]

/-- Two parsed queries with the same list of scoring terms have the same matches. -/
theorem FindAllDocuments_congr (log : R → R) (s : SearchServer R) (q1 q2 : Query)
    (h : q1.plus_.filter (fun T => decide (T ∉ q1.minus_))
      = q2.plus_.filter (fun T => decide (T ∉ q2.minus_))) :
    FindAllDocuments log s q1 = FindAllDocuments log s q2 := by
  rw [FindAllDocuments_eq, FindAllDocuments_eq, scoreFold_filter log s q1,
    scoreFold_filter log s q2, h]

theorem FindTopDocuments_congr (log : R → R) (s : SearchServer R) (raw1 raw2 : Str)
    (h : ∀ T, (T ∈ (ParseQuery s raw1).plus_ ∧ T ∉ (ParseQuery s raw1).minus_)
      ↔ (T ∈ (ParseQuery s raw2).plus_ ∧ T ∉ (ParseQuery s raw2).minus_)) :
    FindTopDocuments log s raw1 = FindTopDocuments log s raw2 := by
  rw [FindTopDocuments_eq_take, FindTopDocuments_eq_take]
  rw [FindAllDocuments_congr log s (ParseQuery s raw1) (ParseQuery s raw2)]
  apply sorted_eq_of_mem_iff
  · exact (sorted_ParseQuery s raw1).1.filter _
  · exact (sorted_ParseQuery s raw2).1.filter _
  · intro T
    simpa [List.mem_filter] using h T

theorem SplitIntoWordsNoStop_of_no_stop_words (s : SearchServer R) (h : s.stop_words_ = [])
    (text : Str) : SplitIntoWordsNoStop s text = SplitIntoWords text := by
  rw [SplitIntoWordsNoStop_eq_filter]
  simp [IsStopWord, h]

theorem build_no_stop_words (docs : List (Int × Str)) :
    (build (R := R) [] docs).stop_words_ = [] := by
  rw [build_stop_words]
  have h : SplitIntoWords [] = [] := by decide
  simp [SetStopWords, SearchServer.init, h]

/-- With no stop words configured, the tokens of a built server are those of
`SplitIntoWords`. -/
theorem tokens_build_no_stop (docs : List (Int × Str)) (text : Str) :
    SplitIntoWordsNoStop (build (R := R) [] docs) text = SplitIntoWords text :=
  SplitIntoWordsNoStop_of_no_stop_words _ (build_no_stop_words docs) text

end QueryEquivalence

/-! ## Claims about equivalent queries: C11 and C20 -/

section EquivalenceClaims

variable {R : Type} [LinearOrderedField R]

/-- C11: if `t` is both a plus term and a minus term of the query `raw` (the
tokens `t` and `-t` both occur), and `raw2` is a query whose tokens are those of
`raw` with every `t` and every `-t` removed, then `FindTopDocuments` returns the
same list for `raw2` as for `raw`: `t` neither scores nor excludes. -/
theorem C11_plus_and_minus_neutral (log : R → R) (s : SearchServer R) (raw raw2 t : Str)
    (hplus : t ∈ (ParseQuery s raw).plus_) (hminus : t ∈ (ParseQuery s raw).minus_)
    (hrem : SplitIntoWordsNoStop s raw2
      = (SplitIntoWordsNoStop s raw).filter (fun w => decide (w ≠ t ∧ w ≠ '-' :: t))) :
    FindTopDocuments log s raw2 = FindTopDocuments log s raw := by
  have hhead : t.head? ≠ some '-' := ((mem_ParseQuery_plus s raw t).1 hplus).2
  apply FindTopDocuments_congr
  intro T
  have hp : T ∈ (ParseQuery s raw2).plus_ ↔ T ∈ (ParseQuery s raw).plus_ ∧ T ≠ t := by
    rw [mem_ParseQuery_plus, mem_ParseQuery_plus, hrem]
    simp only [List.mem_filter, decide_eq_true_eq]
    constructor
    · rintro ⟨⟨h1, h2, _⟩, h3⟩
      exact ⟨⟨h1, h3⟩, h2⟩
    · rintro ⟨⟨h1, h3⟩, h2⟩
      refine ⟨⟨h1, h2, ?_⟩, h3⟩
      intro h
      rw [h] at h3
      exact h3 rfl
  have hm : T ∈ (ParseQuery s raw2).minus_ ↔ T ∈ (ParseQuery s raw).minus_ ∧ T ≠ t := by
    rw [mem_ParseQuery_minus, mem_ParseQuery_minus, hrem]
    simp only [List.mem_filter, decide_eq_true_eq]
    constructor
    · rintro ⟨h1, _, h3⟩
      exact ⟨h1, fun h => h3 (by rw [h])⟩
    · rintro ⟨h1, h2⟩
      refine ⟨h1, ?_, fun h => h2 (List.cons_injective h)⟩
      intro h
      rw [← h] at hhead
      exact hhead rfl
  rw [hp, hm]
  by_cases hT : T = t
  · subst hT
    simp [hminus]
  · simp [hT]

/-- C11 on the worked corpus: the query "a b -b" and the query "a". -/
theorem C11_plus_and_minus_neutral_witness :
    ['b'] ∈ (ParseQuery (build (R := ℝ) [] exampleCorpus) ['a', ' ', 'b', ' ', '-', 'b']).plus_ ∧
    ['b'] ∈ (ParseQuery (build (R := ℝ) [] exampleCorpus) ['a', ' ', 'b', ' ', '-', 'b']).minus_ ∧
    SplitIntoWordsNoStop (build (R := ℝ) [] exampleCorpus) ['a']
      = (SplitIntoWordsNoStop (build (R := ℝ) [] exampleCorpus)
          ['a', ' ', 'b', ' ', '-', 'b']).filter
            (fun w => decide (w ≠ ['b'] ∧ w ≠ '-' :: ['b'])) ∧
    FindTopDocuments Real.log (build (R := ℝ) [] exampleCorpus) ['a']
      = FindTopDocuments Real.log (build (R := ℝ) [] exampleCorpus)
          ['a', ' ', 'b', ' ', '-', 'b'] :=
  have hq : SplitIntoWords ['a', ' ', 'b', ' ', '-', 'b'] = [['a'], ['b'], ['-', 'b']] := by
    decide
  have ha : SplitIntoWords ['a'] = [['a']] := by decide
  have h1 : ['b'] ∈ (ParseQuery (build (R := ℝ) [] exampleCorpus)
      ['a', ' ', 'b', ' ', '-', 'b']).plus_ := by
    rw [mem_ParseQuery_plus, tokens_build_no_stop, hq]
    decide
  have h2 : ['b'] ∈ (ParseQuery (build (R := ℝ) [] exampleCorpus)
      ['a', ' ', 'b', ' ', '-', 'b']).minus_ := by
    rw [mem_ParseQuery_minus, tokens_build_no_stop, hq]
    decide
  have h3 : SplitIntoWordsNoStop (build (R := ℝ) [] exampleCorpus) ['a']
      = (SplitIntoWordsNoStop (build (R := ℝ) [] exampleCorpus)
          ['a', ' ', 'b', ' ', '-', 'b']).filter
            (fun w => decide (w ≠ ['b'] ∧ w ≠ '-' :: ['b'])) := by
    rw [tokens_build_no_stop, tokens_build_no_stop, hq, ha]
    decide
  ⟨h1, h2, h3, C11_plus_and_minus_neutral Real.log _ _ _ _ h1 h2 h3⟩

/-- C20: two query texts whose lists of non-stop-word tokens have the same
members (whatever the order, the repetitions and the spacing) are parsed to the
same plus and minus sets, and `FindTopDocuments` returns the same list for both. -/
theorem C20_query_order_independence (log : R → R) (s : SearchServer R) (raw1 raw2 : Str)
    (h : ∀ w, w ∈ SplitIntoWordsNoStop s raw1 ↔ w ∈ SplitIntoWordsNoStop s raw2) :
    ParseQuery s raw1 = ParseQuery s raw2 ∧
    FindTopDocuments log s raw1 = FindTopDocuments log s raw2 := by
  have hp : (ParseQuery s raw1).plus_ = (ParseQuery s raw2).plus_ := by
    apply sorted_eq_of_mem_iff _ _ (sorted_ParseQuery s raw1).1 (sorted_ParseQuery s raw2).1
    intro w
    rw [mem_ParseQuery_plus, mem_ParseQuery_plus, h]
  have hm : (ParseQuery s raw1).minus_ = (ParseQuery s raw2).minus_ := by
    apply sorted_eq_of_mem_iff _ _ (sorted_ParseQuery s raw1).2 (sorted_ParseQuery s raw2).2
    intro w
    rw [mem_ParseQuery_minus, mem_ParseQuery_minus, h]
  have hq : ParseQuery s raw1 = ParseQuery s raw2 := by
    cases h1 : ParseQuery s raw1
    cases h2 : ParseQuery s raw2
    rw [h1, h2] at hp hm
    simp only [] at hp hm
    rw [hp, hm]
  refine ⟨hq, ?_⟩
  rw [FindTopDocuments_eq_take, FindTopDocuments_eq_take, hq]

/-- C20 on the worked corpus: the queries "b a  a -c" and "a -c b -c". -/
theorem C20_query_order_independence_witness :
    (∀ w, w ∈ SplitIntoWordsNoStop (build (R := ℝ) [] exampleCorpus)
          ['b', ' ', 'a', ' ', ' ', 'a', ' ', '-', 'c']
        ↔ w ∈ SplitIntoWordsNoStop (build (R := ℝ) [] exampleCorpus)
          ['a', ' ', '-', 'c', ' ', 'b', ' ', '-', 'c']) ∧
    (ParseQuery (build (R := ℝ) [] exampleCorpus) ['b', ' ', 'a', ' ', ' ', 'a', ' ', '-', 'c']
        = ParseQuery (build (R := ℝ) [] exampleCorpus)
            ['a', ' ', '-', 'c', ' ', 'b', ' ', '-', 'c'] ∧
      FindTopDocuments Real.log (build (R := ℝ) [] exampleCorpus)
          ['b', ' ', 'a', ' ', ' ', 'a', ' ', '-', 'c']
        = FindTopDocuments Real.log (build (R := ℝ) [] exampleCorpus)
            ['a', ' ', '-', 'c', ' ', 'b', ' ', '-', 'c']) :=
  have h1 : SplitIntoWords ['b', ' ', 'a', ' ', ' ', 'a', ' ', '-', 'c']
      = [['b'], ['a'], ['a'], ['-', 'c']] := by decide
  have h2 : SplitIntoWords ['a', ' ', '-', 'c', ' ', 'b', ' ', '-', 'c']
      = [['a'], ['-', 'c'], ['b'], ['-', 'c']] := by decide
  have h : ∀ w, w ∈ SplitIntoWordsNoStop (build (R := ℝ) [] exampleCorpus)
          ['b', ' ', 'a', ' ', ' ', 'a', ' ', '-', 'c']
        ↔ w ∈ SplitIntoWordsNoStop (build (R := ℝ) [] exampleCorpus)
          ['a', ' ', '-', 'c', ' ', 'b', ' ', '-', 'c'] := by
    intro w
    rw [tokens_build_no_stop, tokens_build_no_stop, h1, h2]
    simp only [List.mem_cons, List.mem_singleton, List.not_mem_nil, or_false]
    tauto
  ⟨h, C20_query_order_independence Real.log _ _ _ h⟩

end EquivalenceClaims

/-! ## Zero scores: C12 -/

section ZeroScores

variable {R : Type} [LinearOrderedField R]

/-- Every id in the match list is the id of an added document. -/
theorem FindAllDocuments_ids_subset (log : R → R) (stop : Str) (docs : List (Int × Str))
    (q : Query) :
    ∀ D ∈ (FindAllDocuments log (build stop docs) q).map Document.id, D ∈ docs.map Prod.fst := by
  intro D hD
  obtain ⟨d, hd, rfl⟩ := List.mem_map.1 hD
  obtain ⟨⟨T, _, _, hT3⟩, _⟩ :=
    (mem_FindAllDocuments_iff log _ (wf_build (R := R) stop docs) q d).1 hd
  obtain ⟨text, hmem, _⟩ := (posting_build_isSome (R := R) stop docs T d.id).1 hT3
  exact List.mem_map.2 ⟨(d.id, text), hmem, rfl⟩

theorem FindAllDocuments_length_le (log : R → R) (stop : Str) (docs : List (Int × Str))
    (q : Query) : (FindAllDocuments log (build stop docs) q).length ≤ docs.length := by
  have h := List.Subperm.length_le
    (List.Nodup.subperm (FindAllDocuments_ids_nodup log (build stop docs) q)
      (FindAllDocuments_ids_subset log stop docs q))
  simpa using h

/-- A document with a posting for a scoring term, all of whose matched scoring
terms have `idf` zero, is in the match list with relevance 0. -/
theorem mem_FindAllDocuments_zero (log : R → R) (s : SearchServer R) (hs : WellFormed s)
    (q : Query) (D : Int)
    (hex : ∃ T ∈ q.plus_, T ∉ q.minus_ ∧ D ∈ mapKeys (PostingsFor s T))
    (hz : ∀ T ∈ q.plus_, T ∉ q.minus_ → D ∈ mapKeys (PostingsFor s T) → idf log s T = 0) :
    ({ id := D, relevance := 0 } : Document R) ∈ FindAllDocuments log s q := by
  rw [mem_FindAllDocuments_iff log s hs]
  simp only [mem_PostingsFor_iff] at hex hz
  refine ⟨hex, ?_⟩
  symm
  apply Finset.sum_eq_zero
  intro T hT
  simp only [Finset.mem_filter, List.mem_toFinset] at hT
  rw [hz T hT.1 hT.2.1 hT.2.2, mul_zero]

theorem relevance_zero_of_idf_zero (log : R → R) (s : SearchServer R) (hs : WellFormed s)
    (q : Query) (d : Document R) (hd : d ∈ FindAllDocuments log s q)
    (hz : ∀ T ∈ q.plus_, T ∉ q.minus_ → d.id ∈ mapKeys (PostingsFor s T) → idf log s T = 0) :
    d.relevance = 0 := by
  rw [((mem_FindAllDocuments_iff log s hs q d).1 hd).2]
  simp only [mem_PostingsFor_iff] at hz
  apply Finset.sum_eq_zero
  intro T hT
  simp only [Finset.mem_filter, List.mem_toFinset] at hT
  rw [hz T hT.1 hT.2.1 hT.2.2, mul_zero]

theorem df_of_all (s : SearchServer R) (docs : List (Int × Str)) (T : Str)
    (hall : ∀ d ∈ docs, T ∈ SplitIntoWordsNoStop s d.2) : df s docs T = docs.length := by
  unfold df
  rw [List.filter_eq_self.2]
  intro d hd
  simpa using hall d hd

/-- Over the reals, a term that occurs in every document of a corpus with
pairwise distinct ids has `idf = ln (n / n) = 0`. -/
theorem idf_of_all (stop : Str) (docs : List (Int × Str)) (hnd : (docs.map Prod.fst).Nodup)
    (T : Str) (hall : ∀ d ∈ docs, T ∈ SplitIntoWordsNoStop (build (R := ℝ) stop docs) d.2) :
    idf Real.log (build (R := ℝ) stop docs) T = 0 := by
  unfold idf
  rw [allk_build, PostingsFor_length_build stop docs hnd T, df_of_all _ docs T hall,
    Int.cast_natCast]
  by_cases h : (docs.length : ℝ) = 0
  · rw [h]; simp
  · rw [div_self h, Real.log_one]

/-- Over the reals, for at most 5 documents with pairwise distinct ids and a
query whose only plus term `T` occurs in every document and that has no minus
term, every document is returned with relevance 0, and nothing else is. -/
theorem zero_score_of_common_term (stop : Str) (docs : List (Int × Str)) (raw T : Str)
    (hnd : (docs.map Prod.fst).Nodup) (hlen : docs.length ≤ 5)
    (hplus : (ParseQuery (build (R := ℝ) stop docs) raw).plus_ = [T])
    (hminus : (ParseQuery (build (R := ℝ) stop docs) raw).minus_ = [])
    (hall : ∀ d ∈ docs, T ∈ SplitIntoWordsNoStop (build (R := ℝ) stop docs) d.2) :
    (∀ d ∈ docs, ({ id := d.1, relevance := 0 } : Document ℝ)
        ∈ FindTopDocuments Real.log (build stop docs) raw) ∧
    (∀ r ∈ FindTopDocuments Real.log (build (R := ℝ) stop docs) raw,
        r.relevance = 0 ∧ r.id ∈ docs.map Prod.fst) ∧
    (FindTopDocuments Real.log (build (R := ℝ) stop docs) raw).length = docs.length := by
  have hwf := wf_build (R := ℝ) stop docs
  have hidf := idf_of_all stop docs hnd T hall
  have hTminus : T ∉ (ParseQuery (build (R := ℝ) stop docs) raw).minus_ := by
    rw [hminus]
    exact List.not_mem_nil T
  have hle : (FindAllDocuments Real.log (build (R := ℝ) stop docs)
      (ParseQuery (build (R := ℝ) stop docs) raw)).length ≤ MAX_RESULT_DOCUMENT_COUNT :=
    le_trans (FindAllDocuments_length_le Real.log stop docs _) hlen
  have hperm := FindTopDocuments_perm_of_le Real.log (build (R := ℝ) stop docs) raw hle
  have hz : ∀ (D : Int), ∀ T2 ∈ (ParseQuery (build (R := ℝ) stop docs) raw).plus_,
      T2 ∉ (ParseQuery (build (R := ℝ) stop docs) raw).minus_ →
      D ∈ mapKeys (PostingsFor (build (R := ℝ) stop docs) T2) →
        idf Real.log (build (R := ℝ) stop docs) T2 = 0 := by
    intro D T2 hT2 _ _
    rw [hplus, List.mem_singleton] at hT2
    rw [hT2]
    exact hidf
  have hin : ∀ d ∈ docs, ({ id := d.1, relevance := 0 } : Document ℝ)
      ∈ FindAllDocuments Real.log (build (R := ℝ) stop docs)
        (ParseQuery (build (R := ℝ) stop docs) raw) := by
    intro d hd
    apply mem_FindAllDocuments_zero Real.log _ hwf _ d.1 _ (hz d.1)
    refine ⟨T, by rw [hplus]; exact List.mem_singleton.2 rfl, hTminus, ?_⟩
    rw [mem_PostingsFor_iff, posting_build_isSome]
    exact ⟨d.2, hd, hall d hd⟩
  refine ⟨fun d hd => hperm.mem_iff.2 (hin d hd), ?_, ?_⟩
  · intro r hr
    have hr2 := hperm.mem_iff.1 hr
    exact ⟨relevance_zero_of_idf_zero Real.log _ hwf _ r hr2 (hz r.id),
      FindAllDocuments_ids_subset Real.log stop docs _ r.id (List.mem_map.2 ⟨r, hr2, rfl⟩)⟩
  · rw [hperm.length_eq]
    have hp2 := (List.perm_ext_iff_of_nodup
      (FindAllDocuments_ids_nodup Real.log (build (R := ℝ) stop docs)
        (ParseQuery (build (R := ℝ) stop docs) raw)) hnd).2 (by
      intro D
      constructor
      · exact FindAllDocuments_ids_subset Real.log stop docs _ D
      · intro hD
        obtain ⟨d, hd, rfl⟩ := List.mem_map.1 hD
        exact List.mem_map.2 ⟨_, hin d hd, rfl⟩)
    simpa using hp2.length_eq

/-- C12: zero-score documents are kept, over the reals. For every index built
with `AddDocument` and every query, a document that has a posting for a scoring
plus term and all of whose matched scoring plus terms have `idf` zero is in the
untruncated match list of `FindAllDocuments` with relevance 0. In particular,
for a corpus of at most 5 documents (pairwise distinct ids, as the data model
has them) and a query whose only plus term `T` occurs in every document and
that has no minus term, `FindTopDocuments` returns every document of the
corpus, each with relevance 0, and nothing else. -/
theorem C12_zero_score_kept (stop : Str) (docs : List (Int × Str)) :
    (∀ (q : Query) (D : Int),
        (∃ T ∈ q.plus_, T ∉ q.minus_ ∧ D ∈ mapKeys (PostingsFor (build (R := ℝ) stop docs) T)) →
        (∀ T ∈ q.plus_, T ∉ q.minus_ →
          D ∈ mapKeys (PostingsFor (build (R := ℝ) stop docs) T) →
            idf Real.log (build (R := ℝ) stop docs) T = 0) →
        ({ id := D, relevance := 0 } : Document ℝ)
          ∈ FindAllDocuments Real.log (build stop docs) q) ∧
    (∀ (raw T : Str),
        (docs.map Prod.fst).Nodup → docs.length ≤ 5 →
        (ParseQuery (build (R := ℝ) stop docs) raw).plus_ = [T] →
        (ParseQuery (build (R := ℝ) stop docs) raw).minus_ = [] →
        (∀ d ∈ docs, T ∈ SplitIntoWordsNoStop (build (R := ℝ) stop docs) d.2) →
          (∀ d ∈ docs, ({ id := d.1, relevance := 0 } : Document ℝ)
              ∈ FindTopDocuments Real.log (build stop docs) raw) ∧
          (∀ r ∈ FindTopDocuments Real.log (build (R := ℝ) stop docs) raw,
              r.relevance = 0 ∧ r.id ∈ docs.map Prod.fst) ∧
          (FindTopDocuments Real.log (build (R := ℝ) stop docs) raw).length = docs.length) :=
  ⟨fun q D hex hz =>
      mem_FindAllDocuments_zero Real.log _ (wf_build (R := ℝ) stop docs) q D hex hz,
    fun raw T hnd hlen hplus hminus hall =>
      zero_score_of_common_term stop docs raw T hnd hlen hplus hminus hall⟩

/-- C12 on the corpus "a b", "a" with the query "a": both documents are returned
with relevance 0, and the result has two entries. -/
theorem C12_zero_score_kept_witness :
    (commonTermCorpus.map Prod.fst).Nodup ∧ commonTermCorpus.length ≤ 5 ∧
    (ParseQuery (build (R := ℝ) [] commonTermCorpus) ['a']).plus_ = [['a']] ∧
    (ParseQuery (build (R := ℝ) [] commonTermCorpus) ['a']).minus_ = [] ∧
    (∀ d ∈ commonTermCorpus,
      ['a'] ∈ SplitIntoWordsNoStop (build (R := ℝ) [] commonTermCorpus) d.2) ∧
    ({ id := 0, relevance := 0 } : Document ℝ)
      ∈ FindTopDocuments Real.log (build [] commonTermCorpus) ['a'] ∧
    ({ id := 1, relevance := 0 } : Document ℝ)
      ∈ FindTopDocuments Real.log (build [] commonTermCorpus) ['a'] ∧
    (FindTopDocuments Real.log (build (R := ℝ) [] commonTermCorpus) ['a']).length = 2 :=
  have ha : SplitIntoWords ['a'] = [['a']] := by decide
  have hab : SplitIntoWords ['a', ' ', 'b'] = [['a'], ['b']] := by decide
  have h1 : (commonTermCorpus.map Prod.fst).Nodup := by decide
  have h2 : commonTermCorpus.length ≤ 5 := by decide
  have h3 : (ParseQuery (build (R := ℝ) [] commonTermCorpus) ['a']).plus_ = [['a']] := by
    unfold ParseQuery
    rw [tokens_build_no_stop, ha]
    decide
  have h4 : (ParseQuery (build (R := ℝ) [] commonTermCorpus) ['a']).minus_ = [] := by
    unfold ParseQuery
    rw [tokens_build_no_stop, ha]
    decide
  have h5 : ∀ d ∈ commonTermCorpus,
      ['a'] ∈ SplitIntoWordsNoStop (build (R := ℝ) [] commonTermCorpus) d.2 := by
    intro d hd
    rw [tokens_build_no_stop]
    simp only [commonTermCorpus, List.mem_cons, List.mem_singleton, List.not_mem_nil,
      or_false] at hd
    rcases hd with rfl | rfl
    · rw [hab]; decide
    · rw [ha]; decide
  have h := (C12_zero_score_kept [] commonTermCorpus).2 ['a'] ['a'] h1 h2 h3 h4 h5
  ⟨h1, h2, h3, h4, h5, h.1 (0, ['a', ' ', 'b']) (by decide), h.1 (1, ['a']) (by decide),
    h.2.2⟩

end ZeroScores

/-! ## Empty documents and the stop-word filter: C13 and C14 -/

section FilterClaims

variable {R : Type} [LinearOrderedField R]

theorem mem_setInsert_fold (ws sw : List Str) (w : Str) :
    w ∈ ws.foldl (fun sw word => setInsert word sw) sw ↔ w ∈ sw ∨ w ∈ ws := by
  induction ws generalizing sw with
  | nil => simp
  | cons x rest ih =>
    rw [List.foldl_cons, ih, mem_setInsert]
    simp only [List.mem_cons]
    tauto

/-- The stop-word set after `SetStopWords`: the old stop words and the tokens of
the given text. -/
theorem mem_SetStopWords (s : SearchServer R) (text w : Str) :
    w ∈ (SetStopWords s text).stop_words_ ↔ w ∈ s.stop_words_ ∨ w ∈ SplitIntoWords text :=
  mem_setInsert_fold (SplitIntoWords text) s.stop_words_ w

/-- C13: for every index state and every document text without tokens after
splitting and stop-word removal, `AddDocument` leaves `word_to_documents_freqs_`
(and the stop words) unchanged, evaluates the division of main.cpp:61 not even
once, and increases the document count by exactly one. -/
theorem C13_empty_document (s : SearchServer R) (id : Int) (doc : Str)
    (h : SplitIntoWordsNoStop s doc = []) :
    (AddDocument s id doc).word_to_documents_freqs_ = s.word_to_documents_freqs_ ∧
    (AddDocument s id doc).stop_words_ = s.stop_words_ ∧
    freqDivisors s doc = [] ∧
    (AddDocument s id doc).allk = s.allk + 1 := by
  refine ⟨?_, rfl, ?_, rfl⟩
  · unfold AddDocument
    simp only [h, List.foldl_nil]
  · unfold freqDivisors
    rw [h]
    rfl

/-- C13 on a server with the stop word "the": the text " the  the" has no token
left, and adding it under id 7 changes only the document count. -/
theorem C13_empty_document_witness :
    SplitIntoWordsNoStop (SetStopWords (SearchServer.init (R := ℚ)) ['t', 'h', 'e'])
        [' ', 't', 'h', 'e', ' ', ' ', 't', 'h', 'e'] = [] ∧
    ((AddDocument (SetStopWords (SearchServer.init (R := ℚ)) ['t', 'h', 'e']) 7
        [' ', 't', 'h', 'e', ' ', ' ', 't', 'h', 'e']).word_to_documents_freqs_
      = (SetStopWords (SearchServer.init (R := ℚ)) ['t', 'h', 'e']).word_to_documents_freqs_ ∧
    (AddDocument (SetStopWords (SearchServer.init (R := ℚ)) ['t', 'h', 'e']) 7
        [' ', 't', 'h', 'e', ' ', ' ', 't', 'h', 'e']).stop_words_
      = (SetStopWords (SearchServer.init (R := ℚ)) ['t', 'h', 'e']).stop_words_ ∧
    freqDivisors (SetStopWords (SearchServer.init (R := ℚ)) ['t', 'h', 'e'])
        [' ', 't', 'h', 'e', ' ', ' ', 't', 'h', 'e'] = [] ∧
    (AddDocument (SetStopWords (SearchServer.init (R := ℚ)) ['t', 'h', 'e']) 7
        [' ', 't', 'h', 'e', ' ', ' ', 't', 'h', 'e']).allk
      = (SetStopWords (SearchServer.init (R := ℚ)) ['t', 'h', 'e']).allk + 1) :=
  have h : SplitIntoWordsNoStop (SetStopWords (SearchServer.init (R := ℚ)) ['t', 'h', 'e'])
      [' ', 't', 'h', 'e', ' ', ' ', 't', 'h', 'e'] = [] := by decide
  ⟨h, C13_empty_document _ 7 _ h⟩

/-- C14: `SplitIntoWordsNoStop` returns the tokens of `SplitIntoWords` with
exactly the members of the stop-word set removed, the others in their original
order and multiplicity; with an empty stop-word set it returns all tokens, and
for a text without tokens it returns the empty list. The stop-word set is the
set of tokens handed to `SetStopWords`. -/
theorem C14_stop_word_filter (s : SearchServer R) (text : Str) :
    SplitIntoWordsNoStop s text
      = (SplitIntoWords text).filter (fun w => decide (w ∉ s.stop_words_)) ∧
    (s.stop_words_ = [] → SplitIntoWordsNoStop s text = SplitIntoWords text) ∧
    (SplitIntoWords text = [] → SplitIntoWordsNoStop s text = []) ∧
    (∀ stop w : Str, w ∈ (SetStopWords s stop).stop_words_
      ↔ w ∈ s.stop_words_ ∨ w ∈ SplitIntoWords stop) := by
  have h : SplitIntoWordsNoStop s text
      = (SplitIntoWords text).filter (fun w => decide (w ∉ s.stop_words_)) := by
    rw [SplitIntoWordsNoStop_eq_filter]
    congr 1
    funext w
    simp [IsStopWord]
  refine ⟨h, fun he => SplitIntoWordsNoStop_of_no_stop_words s he text, ?_,
    fun stop w => mem_SetStopWords s stop w⟩
  intro h0
  rw [h, h0]
  rfl

end FilterClaims

/-! ## The tokenizer: C15 -/

section Tokenizer

theorem SplitIntoWords_eq_finish (text : Str) :
    SplitIntoWords text = splitFinish (text.foldl splitStep ([], [])) := rfl

theorem fold_spaces_idle (n : Nat) (acc : List Str) :
    (spaces n).foldl splitStep (acc, []) = (acc, []) := by
  induction n with
  | zero => rfl
  | succ n ih =>
    rw [spaces, List.replicate_succ, List.foldl_cons]
    simpa [splitStep, spaces] using ih

theorem fold_spaces_close (n : Nat) (acc : List Str) (cur : Str) (hcur : cur ≠ []) :
    (spaces (n + 1)).foldl splitStep (acc, cur) = (acc ++ [cur], []) := by
  rw [spaces, List.replicate_succ, List.foldl_cons]
  have h : splitStep (acc, cur) ' ' = (acc ++ [cur], []) := by
    simp [splitStep, hcur]
  rw [h]
  exact fold_spaces_idle n _

theorem fold_word (w : Str) (hw : ' ' ∉ w) (acc : List Str) (cur : Str) :
    w.foldl splitStep (acc, cur) = (acc, cur ++ w) := by
  induction w generalizing cur with
  | nil => simp
  | cons c rest ih =>
    have hc : c ≠ ' ' := fun h => hw (by simp [h])
    have hrest : ' ' ∉ rest := fun h => hw (List.mem_cons_of_mem _ h)
    rw [List.foldl_cons]
    have h : splitStep (acc, cur) c = (acc, cur ++ [c]) := by
      simp [splitStep, hc]
    rw [h, ih hrest]
    simp

theorem finish_fold_spaced_body (ws : List (Str × Nat)) (acc : List Str)
    (hws : ∀ p ∈ ws, p.1 ≠ [] ∧ ' ' ∉ p.1) (hgap : ∀ p ∈ ws.dropLast, 1 ≤ p.2) :
    splitFinish ((ws.flatMap (fun p => p.1 ++ spaces p.2)).foldl splitStep (acc, []))
      = acc ++ ws.map Prod.fst := by
  induction ws generalizing acc with
  | nil => simp [splitFinish]
  | cons p rest ih =>
    obtain ⟨w, n⟩ := p
    have hw := hws (w, n) (List.mem_cons_self _ _)
    have hrest : ∀ p ∈ rest, p.1 ≠ [] ∧ ' ' ∉ p.1 :=
      fun p hp => hws p (List.mem_cons_of_mem _ hp)
    simp only [List.flatMap_cons, List.foldl_append, List.map_cons]
    rw [fold_word w hw.2, List.nil_append]
    cases n with
    | zero =>
      cases rest with
      | nil => simp [spaces, splitFinish, hw.1]
      | cons q rest2 =>
        have := hgap (w, 0) (by simp [List.dropLast])
        simp at this
    | succ n =>
      rw [fold_spaces_close n acc w hw.1, ih (acc ++ [w]) hrest]
      · simp
      · intro q hq
        cases rest with
        | nil => simp at hq
        | cons r rest2 =>
          apply hgap
          rw [List.dropLast_cons_of_ne_nil (by simp)]
          exact List.mem_cons_of_mem _ hq

/-- Words joined by one or more spaces, with any leading and trailing spaces, are
split back into the words. -/
theorem SplitIntoWords_spaced (lead : Nat) (ws : List (Str × Nat))
    (hws : ∀ p ∈ ws, p.1 ≠ [] ∧ ' ' ∉ p.1) (hgap : ∀ p ∈ ws.dropLast, 1 ≤ p.2) :
    SplitIntoWords (spaced lead ws) = ws.map Prod.fst := by
  rw [SplitIntoWords_eq_finish, spaced, List.foldl_append, fold_spaces_idle,
    finish_fold_spaced_body ws [] hws hgap]
  rfl

theorem splitStep_fold_no_space (text : Str) (st : List Str × Str)
    (h1 : ∀ w ∈ st.1, ' ' ∉ w) (h2 : ' ' ∉ st.2) :
    (∀ w ∈ (text.foldl splitStep st).1, ' ' ∉ w) ∧ ' ' ∉ (text.foldl splitStep st).2 := by
  induction text generalizing st with
  | nil => exact ⟨h1, h2⟩
  | cons c rest ih =>
    rw [List.foldl_cons]
    apply ih
    · unfold splitStep
      split_ifs with hc hcur
      · intro w hw
        rcases List.mem_append.1 hw with hw | hw
        · exact h1 w hw
        · rw [List.mem_singleton.1 hw]; exact h2
      · exact h1
      · exact h1
    · unfold splitStep
      split_ifs with hc hcur
      · simp
      · exact h2
      · intro h
        rcases List.mem_append.1 h with h | h
        · exact h2 h
        · exact hc (List.mem_singleton.1 h).symm

/-- No token returned by `SplitIntoWords` contains a space. -/
theorem SplitIntoWords_no_space (text : Str) : ∀ w ∈ SplitIntoWords text, ' ' ∉ w := by
  have h := splitStep_fold_no_space text ([], []) (by simp) (by simp)
  rw [SplitIntoWords_eq_finish]
  unfold splitFinish
  split_ifs with h1
  · intro w hw
    rcases List.mem_append.1 hw with hw | hw
    · exact h.1 w hw
    · rw [List.mem_singleton.1 hw]; exact h.2
  · exact h.1

theorem spaced_snoc (lead : Nat) (ws : List (Str × Nat)) (w : Str) (n : Nat) :
    spaced lead (ws ++ [(w, n)]) = spaced lead ws ++ w ++ spaces n := by
  simp [spaced, List.flatMap_append]

theorem spaces_succ (n : Nat) : spaces (n + 1) = spaces n ++ [' '] :=
  List.replicate_succ' n ' '

/-- The text read so far is: leading spaces, the finished words each followed by
at least one space, then the word being read. -/
theorem fold_decomposition (text : Str) :
    ∃ (lead : Nat) (ws : List (Str × Nat)),
      ws.map Prod.fst = (text.foldl splitStep ([], [])).1 ∧ (∀ q ∈ ws, 1 ≤ q.2) ∧
        text = spaced lead ws ++ (text.foldl splitStep ([], [])).2 := by
  induction text using List.reverseRecOn with
  | nil => exact ⟨0, [], rfl, by simp, rfl⟩
  | append_singleton text c ih =>
    obtain ⟨lead, ws, hmap, hgap, htext⟩ := ih
    rw [List.foldl_append, List.foldl_cons, List.foldl_nil]
    generalize text.foldl splitStep ([], []) = st at hmap htext
    obtain ⟨acc, cur⟩ := st
    simp only [] at hmap htext
    by_cases hc : c = ' '
    · subst hc
      by_cases hcur : cur = []
      · subst hcur
        have hst : splitStep (acc, []) ' ' = (acc, []) := by simp [splitStep]
        rw [hst]
        rcases List.eq_nil_or_concat ws with hnil | ⟨L, b, hL⟩
        · subst hnil
          refine ⟨lead + 1, [], hmap, by simp, ?_⟩
          rw [htext]
          simp [spaced, spaces_succ]
        · obtain ⟨w, n⟩ := b
          rw [List.concat_eq_append] at hL
          subst hL
          refine ⟨lead, L ++ [(w, n + 1)], ?_, ?_, ?_⟩
          · simpa using hmap
          · intro q hq
            rcases List.mem_append.1 hq with hq | hq
            · exact hgap q (List.mem_append_left _ hq)
            · rw [List.mem_singleton.1 hq]
              exact Nat.le_add_left 1 n
          · rw [htext, spaced_snoc, spaced_snoc, spaces_succ]
            simp
      · have hst : splitStep (acc, cur) ' ' = (acc ++ [cur], []) := by simp [splitStep, hcur]
        rw [hst]
        refine ⟨lead, ws ++ [(cur, 1)], by simp [hmap], ?_, ?_⟩
        · intro q hq
          rcases List.mem_append.1 hq with hq | hq
          · exact hgap q hq
          · rw [List.mem_singleton.1 hq]
        · rw [htext, spaced_snoc]
          simp [spaces]
    · have hst : splitStep (acc, cur) c = (acc, cur ++ [c]) := by simp [splitStep, hc]
      rw [hst]
      refine ⟨lead, ws, hmap, hgap, ?_⟩
      rw [htext]
      simp

/-- Every text is its tokens separated by one or more spaces, with leading and
trailing spaces: the tokens are the maximal runs of non-space characters. -/
theorem SplitIntoWords_decomposition (text : Str) :
    ∃ (lead : Nat) (ws : List (Str × Nat)),
      text = spaced lead ws ∧ ws.map Prod.fst = SplitIntoWords text ∧
        ∀ p ∈ ws.dropLast, 1 ≤ p.2 := by
  obtain ⟨lead, ws, hmap, hgap, htext⟩ := fold_decomposition text
  rw [SplitIntoWords_eq_finish]
  generalize text.foldl splitStep ([], []) = st at hmap htext
  obtain ⟨acc, cur⟩ := st
  simp only [] at hmap htext
  unfold splitFinish
  by_cases hcur : cur = []
  · subst hcur
    refine ⟨lead, ws, by simpa using htext, by simpa using hmap, ?_⟩
    intro p hp
    exact hgap p (List.mem_of_mem_dropLast hp)
  · refine ⟨lead, ws ++ [(cur, 0)], ?_, ?_, ?_⟩
    · rw [htext, spaced_snoc]
      simp [spaces]
    · simp [hcur, hmap]
    · rw [List.dropLast_concat]
      exact hgap

/-- C15: the tokens returned by `SplitIntoWords` are non-empty and contain no
space; a non-empty text without a space (whatever other characters it contains,
tabs and newlines included) is a single token; words that are non-empty and
space-free, joined by one or more spaces with any leading and trailing spaces,
are split back into exactly these words; and every text is of that form for its
own tokens, so that the tokens are, in order, the maximal runs of non-space
characters. -/
theorem C15_tokenizer (text : Str) :
    (∀ w ∈ SplitIntoWords text, w ≠ [] ∧ ' ' ∉ w) ∧
    (text ≠ [] → ' ' ∉ text → SplitIntoWords text = [text]) ∧
    (∀ (lead : Nat) (ws : List (Str × Nat)),
      (∀ p ∈ ws, p.1 ≠ [] ∧ ' ' ∉ p.1) → (∀ p ∈ ws.dropLast, 1 ≤ p.2) →
        SplitIntoWords (spaced lead ws) = ws.map Prod.fst) ∧
    (∃ (lead : Nat) (ws : List (Str × Nat)),
      text = spaced lead ws ∧ ws.map Prod.fst = SplitIntoWords text ∧
        ∀ p ∈ ws.dropLast, 1 ≤ p.2) := by
  refine ⟨fun w hw => ⟨SplitIntoWords_nonempty text w hw, SplitIntoWords_no_space text w hw⟩,
    ?_, SplitIntoWords_spaced, SplitIntoWords_decomposition text⟩
  intro hne hsp
  have h := SplitIntoWords_spaced 0 [(text, 0)] (by simpa using ⟨hne, hsp⟩) (by simp)
  simpa [spaced, spaces] using h

end Tokenizer

/-! ## Signs and counts: C16 and C17 -/

section SignClaims

variable {R : Type} [LinearOrderedField R]

/-- Every stored term frequency of a built index is positive. -/
theorem posting_build_pos (stop : Str) (docs : List (Int × Str)) (T : Str) (D : Int) (v : R)
    (h : posting (build (R := R) stop docs).word_to_documents_freqs_ T D = some v) : 0 < v := by
  induction docs using List.reverseRecOn generalizing v with
  | nil => simp [build, SetStopWords, SearchServer.init, posting_nil] at h
  | append_singleton docs d ih =>
    rw [build_snoc, posting_AddDocument] at h
    split_ifs at h with hc
    · have hold : 0 ≤ (posting (build (R := R) stop docs).word_to_documents_freqs_ T D).getD 0 := by
        cases hp : posting (build (R := R) stop docs).word_to_documents_freqs_ T D with
        | none => simp
        | some v0 => exact le_of_lt (ih v0 hp)
      have hcount : 0 < (SplitIntoWordsNoStop (build (R := R) stop docs) d.2).count T :=
        List.count_pos_iff.2 hc.2
      have hlen : 0 < (SplitIntoWordsNoStop (build (R := R) stop docs) d.2).length :=
        List.length_pos.2 (List.ne_nil_of_mem hc.2)
      have hfrac : (0 : R) < ((SplitIntoWordsNoStop (build (R := R) stop docs) d.2).count T : R)
          / ((SplitIntoWordsNoStop (build (R := R) stop docs) d.2).length : R) :=
        div_pos (Nat.cast_pos.2 hcount) (Nat.cast_pos.2 hlen)
      cases h
      exact add_pos_of_nonneg_of_pos hold hfrac
    · exact ih v h

/-- The inner map of an indexed term has at least one and at most `allk` entries. -/
theorem PostingsFor_length_bounds (stop : Str) (docs : List (Int × Str)) (T : Str)
    (hT : T ∈ mapKeys (build (R := R) stop docs).word_to_documents_freqs_) :
    1 ≤ (PostingsFor (build (R := R) stop docs) T).length ∧
      ((PostingsFor (build (R := R) stop docs) T).length : Int)
        ≤ (build (R := R) stop docs).allk := by
  have hwf := wf_build (R := R) stop docs
  constructor
  · unfold PostingsFor
    cases hf : mapFind (build (R := R) stop docs).word_to_documents_freqs_ T with
    | none => exact absurd hT ((mapFind_eq_none_iff _ T).1 hf)
    | some inner =>
      have := (hwf.2 _ (mapFind_mem hf)).2
      exact List.length_pos.2 (by simpa using this)
  · rw [allk_build]
    have hsub : ∀ D ∈ mapKeys (PostingsFor (build (R := R) stop docs) T),
        D ∈ docs.map Prod.fst := by
      intro D hD
      rw [mem_PostingsFor_iff, posting_build_isSome] at hD
      obtain ⟨text, hmem, _⟩ := hD
      exact List.mem_map.2 ⟨(D, text), hmem, rfl⟩
    have h := List.Subperm.length_le
      (List.Nodup.subperm (nodup_PostingsFor _ hwf T) hsub)
    simp only [mapKeys, List.length_map] at h
    exact_mod_cast h

/-- Over the reals the `idf` of an indexed term is `ln` of a number at least 1. -/
theorem idf_nonneg (stop : Str) (docs : List (Int × Str)) (T : Str)
    (hT : T ∈ mapKeys (build (R := ℝ) stop docs).word_to_documents_freqs_) :
    0 ≤ idf Real.log (build (R := ℝ) stop docs) T := by
  obtain ⟨h1, h2⟩ := PostingsFor_length_bounds (R := ℝ) stop docs T hT
  unfold idf
  apply Real.log_nonneg
  have hpos : (0 : ℝ) < ((PostingsFor (build (R := ℝ) stop docs) T).length : ℝ) :=
    Nat.cast_pos.2 h1
  rw [one_le_div hpos]
  exact_mod_cast h2

theorem indexed_of_posting (m : List (Str × List (Int × R))) (T : Str) (D : Int)
    (h : (posting m T D).isSome) : T ∈ mapKeys m := by
  rw [← mapFind_isSome_iff]
  unfold posting at h
  cases hf : mapFind m T with
  | none => simp [hf] at h
  | some inner => rfl

theorem wrapInt32_eq_self (x : Int) (h1 : -2147483648 ≤ x) (h2 : x ≤ INT_MAX) :
    wrapInt32 x = x := by
  unfold wrapInt32
  unfold INT_MAX at h2
  omega

/-- One increment past `INT_MAX` makes the 32-bit counter negative. -/
theorem wrapInt32_overflow : wrapInt32 (INT_MAX + 1) = -2147483648 := by
  decide

/-- After at most `INT_MAX` calls the 32-bit counter holds the number of calls. -/
theorem allk_build_fits (stop : Str) (docs : List (Int × Str))
    (hcalls : (docs.length : Int) ≤ INT_MAX) :
    wrapInt32 (build (R := R) stop docs).allk = (build (R := R) stop docs).allk := by
  rw [allk_build]
  apply wrapInt32_eq_self _ _ hcalls
  have : (0 : Int) ≤ (docs.length : Int) := Int.natCast_nonneg _
  omega

/-- C16: over the reals, for every index built by a sequence of at most
`INT_MAX` `AddDocument` calls (so that the `int` counter has not wrapped and
holds the number of calls) and every query, every returned relevance is
non-negative; every indexed term has between 1 and `allk` postings, so its `idf`
is the logarithm of a number at least 1 and is non-negative, and every stored
term frequency is positive. -/
theorem C16_nonnegative_relevance (stop : Str) (docs : List (Int × Str))
    (hcalls : (docs.length : Int) ≤ INT_MAX) (raw : Str) :
    (∀ d ∈ FindTopDocuments Real.log (build (R := ℝ) stop docs) raw, 0 ≤ d.relevance) ∧
    (∀ T ∈ mapKeys (build (R := ℝ) stop docs).word_to_documents_freqs_,
      1 ≤ (PostingsFor (build (R := ℝ) stop docs) T).length ∧
      ((PostingsFor (build (R := ℝ) stop docs) T).length : Int)
        ≤ (build (R := ℝ) stop docs).allk ∧
      1 ≤ ((build (R := ℝ) stop docs).allk : ℝ)
        / ((PostingsFor (build (R := ℝ) stop docs) T).length : ℝ) ∧
      0 ≤ idf Real.log (build (R := ℝ) stop docs) T) ∧
    (∀ (T : Str) (D : Int) (v : ℝ),
      posting (build (R := ℝ) stop docs).word_to_documents_freqs_ T D = some v → 0 < v) ∧
    wrapInt32 (build (R := ℝ) stop docs).allk = (build (R := ℝ) stop docs).allk := by
  refine ⟨?_, ?_, fun T D v h => posting_build_pos stop docs T D v h,
    allk_build_fits stop docs hcalls⟩
  · intro d hd
    have hmem := mem_FindAll_of_mem_FindTop Real.log _ raw d hd
    rw [((mem_FindAllDocuments_iff Real.log _ (wf_build (R := ℝ) stop docs) _ d).1 hmem).2]
    apply Finset.sum_nonneg
    intro T hT
    simp only [Finset.mem_filter, List.mem_toFinset] at hT
    apply mul_nonneg
    · cases hp : posting (build (R := ℝ) stop docs).word_to_documents_freqs_ T d.id with
      | none => simp
      | some v => exact le_of_lt (posting_build_pos stop docs T d.id v hp)
    · exact idf_nonneg stop docs T (indexed_of_posting _ T d.id hT.2.2)
  · intro T hT
    obtain ⟨h1, h2⟩ := PostingsFor_length_bounds (R := ℝ) stop docs T hT
    refine ⟨h1, h2, ?_, idf_nonneg stop docs T hT⟩
    rw [one_le_div (Nat.cast_pos.2 h1)]
    exact_mod_cast h2

/-- C16 on the worked example: three calls, and both relevances returned for the
query "a -b" are non-negative. -/
theorem C16_nonnegative_relevance_witness :
    (exampleCorpus.length : Int) ≤ INT_MAX ∧
    (∀ d ∈ FindTopDocuments Real.log (build (R := ℝ) [] exampleCorpus) exampleQuery,
      0 ≤ d.relevance) ∧
    wrapInt32 (build (R := ℝ) [] exampleCorpus).allk = (build (R := ℝ) [] exampleCorpus).allk :=
  have h : (exampleCorpus.length : Int) ≤ INT_MAX := by decide
  ⟨h, (C16_nonnegative_relevance [] exampleCorpus h exampleQuery).1,
    (C16_nonnegative_relevance [] exampleCorpus h exampleQuery).2.2.2⟩

/-- C17 as stated fails: after adding two texts under the same id 0 the document
count is 2, while one distinct id was added. -/
theorem C17_document_count_counterexample :
    (build (R := ℚ) [] [(0, ['a']), (0, ['a'])]).allk = 2 ∧
    ((([(0, ['a']), (0, ['a'])] : List (Int × Str)).map Prod.fst).dedup.length : Int) = 1 ∧
    ¬ ((build (R := ℚ) [] [(0, ['a']), (0, ['a'])]).allk
        = ((([(0, ['a']), (0, ['a'])] : List (Int × Str)).map Prod.fst).dedup.length : Int)) := by
  have h1 : (build (R := ℚ) [] [(0, ['a']), (0, ['a'])]).allk = 2 := by
    rw [allk_build]; rfl
  have h2 : ((([(0, ['a']), (0, ['a'])] : List (Int × Str)).map Prod.fst).dedup.length : Int)
      = 1 := by decide
  refine ⟨h1, h2, ?_⟩
  rw [h1, h2]
  decide

/-- C17, amended: after any sequence of at most `INT_MAX` `AddDocument` calls
the document count `allk` equals the number of calls, and the `int` counter
holds that number unwrapped. It equals the number of distinct ids when the ids
are pairwise distinct, and is never below that number. No operation decreases
it while it is below `INT_MAX`: `AddDocument` adds exactly one, without
wrapping, and `SetStopWords` leaves it unchanged (`FindTopDocuments` is
`const`). -/
theorem C17_document_count (stop : Str) (docs : List (Int × Str))
    (hcalls : (docs.length : Int) ≤ INT_MAX) :
    (build (R := R) stop docs).allk = (docs.length : Int) ∧
    wrapInt32 (build (R := R) stop docs).allk = (build (R := R) stop docs).allk ∧
    ((docs.map Prod.fst).Nodup →
      (build (R := R) stop docs).allk = ((docs.map Prod.fst).dedup.length : Int)) ∧
    ((docs.map Prod.fst).dedup.length : Int) ≤ (build (R := R) stop docs).allk ∧
    (∀ (s : SearchServer R) (id : Int) (doc : Str), 0 ≤ s.allk → s.allk < INT_MAX →
      (AddDocument s id doc).allk = s.allk + 1 ∧
        wrapInt32 (AddDocument s id doc).allk = s.allk + 1) ∧
    (∀ (s : SearchServer R) (text : Str), (SetStopWords s text).allk = s.allk) := by
  refine ⟨allk_build stop docs, allk_build_fits stop docs hcalls, ?_, ?_, ?_,
    fun _ _ => rfl⟩
  · intro hnd
    rw [allk_build, hnd.dedup, List.length_map]
  · rw [allk_build]
    have h := (List.dedup_sublist (docs.map Prod.fst)).length_le
    rw [List.length_map] at h
    exact_mod_cast h
  · intro s id doc h0 hlt
    refine ⟨rfl, ?_⟩
    have hstep : (AddDocument s id doc).allk = s.allk + 1 := rfl
    rw [hstep]
    apply wrapInt32_eq_self
    · omega
    · unfold INT_MAX at hlt ⊢
      omega

/-- C17, amended, on the worked example: three calls with distinct ids give the
document count 3. -/
theorem C17_document_count_witness :
    (exampleCorpus.length : Int) ≤ INT_MAX ∧
    (build (R := ℚ) [] exampleCorpus).allk = (exampleCorpus.length : Int) ∧
    wrapInt32 (build (R := ℚ) [] exampleCorpus).allk = (build (R := ℚ) [] exampleCorpus).allk :=
  have h : (exampleCorpus.length : Int) ≤ INT_MAX := by decide
  ⟨h, (C17_document_count [] exampleCorpus h).1, (C17_document_count [] exampleCorpus h).2.1⟩

end SignClaims

/-! ## Shape of the result: C18 and C19 -/

section ShapeClaims

variable {R : Type} [LinearOrderedField R]

/-- C18: with `M` the list of `FindAllDocuments` for the parsed query,
`FindTopDocuments` returns `min 5 |M|` entries, all of them entries of `M` (each
at most as often as in `M`); every entry of `M` that is not returned has
relevance at most that of every returned entry; and when `|M| ≤ 5` the result
is a permutation of `M`. -/
theorem C18_truncation_keeps_best (log : R → R) (s : SearchServer R) (raw : Str) :
    (FindTopDocuments log s raw).length
      = min 5 (FindAllDocuments log s (ParseQuery s raw)).length ∧
    (FindTopDocuments log s raw).Subperm (FindAllDocuments log s (ParseQuery s raw)) ∧
    (∀ m ∈ FindAllDocuments log s (ParseQuery s raw), m ∉ FindTopDocuments log s raw →
      ∀ r ∈ FindTopDocuments log s raw, m.relevance ≤ r.relevance) ∧
    ((FindAllDocuments log s (ParseQuery s raw)).length ≤ 5 →
      (FindTopDocuments log s raw).Perm (FindAllDocuments log s (ParseQuery s raw))) := by
  have hperm := sort_perm byRelevance (FindAllDocuments log s (ParseQuery s raw))
  have hsorted := sort_byRelevance_sorted (FindAllDocuments log s (ParseQuery s raw))
  refine ⟨?_, ?_, ?_, fun h => FindTopDocuments_perm_of_le log s raw h⟩
  · rw [FindTopDocuments_eq_take, List.length_take, hperm.length_eq]
    rfl
  · rw [FindTopDocuments_eq_take]
    exact (List.take_sublist _ _).subperm.trans hperm.subperm
  · intro m hm hnot r hr
    rw [FindTopDocuments_eq_take] at hnot hr
    have hmL := hperm.mem_iff.2 hm
    rw [← List.take_append_drop MAX_RESULT_DOCUMENT_COUNT
      (sort byRelevance (FindAllDocuments log s (ParseQuery s raw)))] at hmL hsorted
    rcases List.mem_append.1 hmL with h | h
    · exact absurd h hnot
    · exact (List.pairwise_append.1 hsorted).2.2 r hr m h

/-- C19: for every index built by `AddDocument` and every query, the ids in the
result are pairwise distinct, each is the id of an added document, and under
each returned id a document was added that contains a plus term that is not a
minus term; a query with an empty plus set returns the empty list. -/
theorem C19_result_well_formed (log : R → R) (stop : Str) (docs : List (Int × Str))
    (raw : Str) :
    ((FindTopDocuments log (build stop docs) raw).map Document.id).Nodup ∧
    (∀ d ∈ FindTopDocuments log (build stop docs) raw, d.id ∈ docs.map Prod.fst) ∧
    (∀ d ∈ FindTopDocuments log (build stop docs) raw,
      ∃ text, (d.id, text) ∈ docs ∧
        ∃ T ∈ (ParseQuery (build (R := R) stop docs) raw).plus_,
          T ∉ (ParseQuery (build (R := R) stop docs) raw).minus_ ∧
            T ∈ SplitIntoWordsNoStop (build (R := R) stop docs) text) ∧
    ((ParseQuery (build (R := R) stop docs) raw).plus_ = [] →
      FindTopDocuments log (build stop docs) raw = []) := by
  have hwf := wf_build (R := R) stop docs
  refine ⟨?_, ?_, ?_, ?_⟩
  · rw [FindTopDocuments_eq_take]
    apply List.Nodup.sublist (List.Sublist.map _ (List.take_sublist _ _))
    rw [((sort_perm byRelevance _).map Document.id).nodup_iff]
    exact FindAllDocuments_ids_nodup log _ _
  · intro d hd
    exact FindAllDocuments_ids_subset log stop docs _ d.id
      (List.mem_map.2 ⟨d, mem_FindAll_of_mem_FindTop log _ raw d hd, rfl⟩)
  · intro d hd
    obtain ⟨⟨T, hT1, hT2, hT3⟩, _⟩ := (mem_FindAllDocuments_iff log _ hwf _ d).1
      (mem_FindAll_of_mem_FindTop log _ raw d hd)
    obtain ⟨text, hmem, htok⟩ := (posting_build_isSome (R := R) stop docs T d.id).1 hT3
    exact ⟨text, hmem, T, hT1, hT2, htok⟩
  · intro hempty
    rw [FindTopDocuments_eq_take, FindAllDocuments_eq, hempty]
    rfl

end ShapeClaims

end SearchServerModel
